import Mathlib

/-!
# Verification of an MCTS engine with a Connect-4 game instance

This file gives a shallow embedding of the Rust sources `connect4.rs`,
`game.rs` and `mcts.rs` (a Monte Carlo tree search engine over a generic
game-state interface, instantiated with Connect 4), and proves properties
of the embedded definitions.

Modelling conventions:
* `&mut self` methods returning `Result<(), E>` become pure functions
  returning the post-state paired with an optional error
  (`Game.make_move : Game → Move → Game × Option MoveError`).
* `Vec<Node>` arenas become `List Node`; indexing uses `List.getD` with a
  default node, and recursive arena walks take an explicit fuel argument
  (the Rust recursion terminates because child handles are strictly larger
  than parent handles, an invariant of every reachable arena).
* The random choices made through `rand::thread_rng` (expansion-move
  choice, rollout outcome) and the `f64` score comparisons performed by
  `select_max_child` are abstracted into explicit choice parameters: every
  concrete execution of the Rust code corresponds to one valuation of
  these parameters, and the theorems quantify over all valuations.
* `panic!` / `.unwrap()` failures are modelled by `Option`, `none` being
  the panic.
-/

set_option autoImplicit false

namespace Connect4

/-- The players available in connect 4 (`connect4.rs`, `enum Player`). -/
inductive Player where
  | Red
  | Yellow
deriving DecidableEq, Repr, Inhabited

namespace Player

/-- `Player::all` from `connect4.rs`. -/
def all : List Player := [Player.Red, Player.Yellow]

/-- `Player::next` from `connect4.rs`. -/
def next : Player → Player
  | Player.Red => Player.Yellow
  | Player.Yellow => Player.Red

/-- `Player::prev` from `connect4.rs`. -/
def prev : Player → Player
  | Player.Yellow => Player.Red
  | Player.Red => Player.Yellow

end Player

/-- `type Move = u8` from `connect4.rs`; moves name the target column.
We model the value as `Nat`; the code's only arithmetic use is the
`mv as usize` column index, and no overflow can occur. -/
abbrev Move := Nat

/-- `enum MoveError` from `connect4.rs`. -/
inductive MoveError where
  | OutOfRange (mv : Move)
  | ColumnFull (mv : Move)
deriving DecidableEq, Repr, Inhabited

/-- `const WIDTH: usize = 7`. -/
def WIDTH : Nat := 7
/-- `const HEIGHT: usize = 6`. -/
def HEIGHT : Nat := 6
/-- `const CONNECT_LEN: usize = 4`. -/
def CONNECT_LEN : Nat := 4

/-- The connect 4 game state (`struct Game`): the player to move, the
board as `WIDTH` columns of `HEIGHT` cells (bottom cell first), and the
cached winner. -/
structure Game where
  turn : Player
  board : List (List (Option Player))
  winner : Option Player
deriving DecidableEq, Repr

instance : Inhabited Game := ⟨⟨Player.Red, [], none⟩⟩

/-- `struct Point(usize, usize)`: column, row. -/
structure Point where
  col : Nat
  row : Nat

/-- `struct PointDirection(i64, i64)`: column delta, row delta. -/
structure PointDirection where
  dc : Int
  dr : Int

namespace Game

/-- `Game::new` from `connect4.rs`. -/
def new : Game :=
  { turn := Player.Red
    board := List.replicate WIDTH (List.replicate HEIGHT none)
    winner := none }

/-- Reads the board cell `board[col][row]` (an out-of-bounds read in the
Rust array model cannot occur for in-range points; `getD` defaults to an
empty cell). -/
def cell (g : Game) (col row : Nat) : Option Player :=
  (g.board.getD col []).getD row none

/-- `Game::get_point_from` from `connect4.rs`: the point at signed
distance `dist` from `start` in direction `dir` (reversed when `rev`),
when it lies on the board. -/
def get_point_from (start : Point) (dir : PointDirection) (dist : Int) (rev : Bool) :
    Option Point :=
  let cd : Int := dir.dc * dist
  let rd : Int := dir.dr * dist
  let nc : Int := if rev then (start.col : Int) - cd else (start.col : Int) + cd
  let nr : Int := if rev then (start.row : Int) - rd else (start.row : Int) + rd
  if 0 ≤ nc ∧ nc < (WIDTH : Int) ∧ 0 ≤ nr ∧ nr < (HEIGHT : Int) then
    some ⟨nc.toNat, nr.toNat⟩
  else
    none

/-- The loop body of `Game::count_line_from`: walk the distances in
order, counting consecutive cells owned by `player` and stopping at the
first miss (the Rust `break`). -/
def count_line_go (g : Game) (start : Point) (dir : PointDirection) (player : Player)
    (rev : Bool) : List Int → Nat
  | [] => 0
  | dist :: rest =>
    match get_point_from start dir dist rev with
    | some p =>
      match g.cell p.col p.row with
      | some ply => if ply = player then 1 + count_line_go g start dir player rev rest else 0
      | none => 0
    | none => 0

/-- `Game::count_line_from` from `connect4.rs`: `for dist in 1..CONNECT_LEN`
with early `break` on the first non-matching cell. -/
def count_line_from (g : Game) (start : Point) (dir : PointDirection) (player : Player)
    (rev : Bool) : Nat :=
  count_line_go g start dir player rev ((List.range' 1 (CONNECT_LEN - 1)).map (Int.ofNat))

/-- `Game::update_winner_from` from `connect4.rs`: for each of the four
directions, count the line through `(col, row)` and set the winner when
it reaches `CONNECT_LEN`. -/
def update_winner_from (g : Game) (col row : Nat) : Game :=
  match g.cell col row with
  | none => g
  | some ply =>
    [PointDirection.mk 1 0, PointDirection.mk 1 1,
     PointDirection.mk 0 1, PointDirection.mk (-1) 1].foldl
      (fun g' dir =>
        let start : Point := ⟨col, row⟩
        let count := 1 + g'.count_line_from start dir ply false
          + g'.count_line_from start dir ply true
        if CONNECT_LEN ≤ count then { g' with winner := some ply } else g') g

/-- `Game::make_move` (the `GameState` impl in `connect4.rs`): mutation
is modelled by returning the post-state together with the optional
error. Both error branches return before any board mutation. -/
def make_move (g : Game) (mv : Move) : Game × Option MoveError :=
  let col_i := mv
  if WIDTH ≤ col_i then
    (g, some (MoveError.OutOfRange mv))
  else
    let col := g.board.getD col_i []
    match col.findIdx? (fun c => c = none) with
    | some row_i =>
      let g1 : Game := { g with board := g.board.set col_i (col.set row_i (some g.turn)) }
      let g2 := g1.update_winner_from col_i row_i
      ({ g2 with turn := g2.turn.next }, none)
    | none => (g, some (MoveError.ColumnFull mv))

/-- `GameState::from_move` (default method in `game.rs`): clone, apply
the move, return the new state or the error. -/
def from_move (g : Game) (mv : Move) : Except MoveError Game :=
  match g.make_move mv with
  | (_, some e) => Except.error e
  | (g', none) => Except.ok g'

/-- `Game::get_moves` from `connect4.rs`: no winner yet, and all columns
whose top cell is empty. -/
def get_moves (g : Game) : List Move :=
  match g.winner with
  | some _ => []
  | none =>
    ((g.board.zip (List.range WIDTH)).filter
      (fun p => decide (p.1.getLast? = some none))).map (fun p => p.2)

/-- `Game::get_winner` from `connect4.rs`. -/
def get_winner (g : Game) : Option Player := g.winner

/-- `Game::get_current_player` from `connect4.rs`. -/
def get_current_player (g : Game) : Player := g.turn

/-- `Game::get_prev_player` from `connect4.rs`. -/
def get_prev_player (g : Game) : Player := g.turn.prev

end Game

end Connect4

/-! ## The `GameState` trait (`game.rs`)

The engine consumes the game only through this interface. The Rust trait
method `make_move` mutates in place; the engine itself only ever calls
the derived `from_move` (clone + apply), which is the operation modelled
here. -/

/-- The `GameState` trait from `game.rs`, as a record of the operations
the engine uses. `from_move` is the trait's default method (clone the
state, apply the move, return the new state or the move error). -/
structure GameState (P M ME S : Type) where
  from_move : S → M → Except ME S
  get_moves : S → List M
  get_winner : S → Option P
  get_current_player : S → P
  get_prev_player : S → P

/-- The Connect-4 instance of the `GameState` trait (`connect4.rs`,
`impl GameState<Player, Move, MoveError> for Game`). -/
def connect4Game : GameState Connect4.Player Connect4.Move Connect4.MoveError Connect4.Game :=
  { from_move := Connect4.Game.from_move
    get_moves := Connect4.Game.get_moves
    get_winner := Connect4.Game.get_winner
    get_current_player := Connect4.Game.get_current_player
    get_prev_player := Connect4.Game.get_prev_player }

/-! ## The search tree (`mcts.rs`)

`struct Node` and `struct Mcts`. The Rust `PhantomData` members are
dropped. `Vec` indices (`usize` handles) are `Nat`. -/

/-- `struct Node` from `mcts.rs`: one position of the explored tree. -/
structure Node (M S : Type) where
  /-- The move that got the game state to this node. -/
  mv : Option M
  /-- The ID of the parent node, or `none` if this is the root node. -/
  parent_node : Option Nat
  /-- The IDs of the child nodes. -/
  child_nodes : List Nat
  /-- The number of wins the player just moved has from this node. -/
  wins : Nat
  /-- The number of times this node has been rolled out from. -/
  visits : Nat
  /-- The untried moves that are still available. -/
  untried_mvs : List M
  /-- The game state that this node reflects. -/
  state : S
deriving DecidableEq, Repr

instance (M S : Type) [Inhabited S] : Inhabited (Node M S) :=
  ⟨{ mv := none, parent_node := none, child_nodes := [], wins := 0, visits := 0,
     untried_mvs := [], state := default }⟩

namespace Node

variable {P M ME S : Type}

/-- `Node::new` from `mcts.rs`. -/
def new (g : GameState P M ME S) (mv : Option M) (parent_node : Option Nat) (state : S) :
    Node M S :=
  { mv, parent_node, child_nodes := [], wins := 0, visits := 0,
    untried_mvs := g.get_moves state, state }

/-- `Node::is_fully_expanded` from `mcts.rs`. -/
def is_fully_expanded (n : Node M S) : Bool :=
  decide (n.untried_mvs.length = 0)

/-- `Node::has_children` from `mcts.rs`. -/
def has_children (n : Node M S) : Bool :=
  decide (n.child_nodes.length ≠ 0)

/-- `Node::update` from `mcts.rs`: bump `visits`; bump `wins` when the
winner is the previous player of this node's state. -/
def update [DecidableEq P] (g : GameState P M ME S) (n : Node M S) (winner : Option P) :
    Node M S :=
  let n1 := { n with visits := n.visits + 1 }
  match winner with
  | some wnr =>
    if wnr = g.get_prev_player n1.state then { n1 with wins := n1.wins + 1 } else n1
  | none => n1

end Node

/-- `struct Mcts` from `mcts.rs`: the node arena, the current root
handle, and the player searched for. -/
structure Mcts (P M S : Type) where
  tree : List (Node M S)
  cur_node_id : Nat
  target_player : P
deriving Repr

/-- The choices one iteration of the search loop draws from outside the
tree: the child picked at each step of the UCB1 descent (`oracle`, an
index into `child_nodes` keyed by the node where the choice is made,
abstracting `select_max_child` over `f64` scores), the random untried
move picked by expansion (`choice`, reduced mod the length of
`untried_mvs`), and the winner produced by the random rollout
(`winner`). Every execution of the Rust loop body corresponds to one
`StepParams` valuation. -/
structure StepParams (P : Type) where
  oracle : Nat → Nat
  choice : Nat
  winner : Option P

namespace Mcts

variable {P M ME S : Type}

/-- `Mcts::get_node`: arena indexing (`&self.tree[node_id]`). -/
def get_node [Inhabited S] (m : Mcts P M S) (node_id : Nat) : Node M S :=
  m.tree.getD node_id default

/-- `Mcts::get_cur_node`. -/
def get_cur_node [Inhabited S] (m : Mcts P M S) : Node M S :=
  m.get_node m.cur_node_id

/-- `Mcts::push_node`: append to the arena, return the new handle. -/
def push_node (m : Mcts P M S) (node : Node M S) : Mcts P M S × Nat :=
  ({ m with tree := m.tree ++ [node] }, m.tree.length)

/-- `Mcts::new` from `mcts.rs`: a one-node arena holding the cloned
initial state, with handle 0 current. -/
def new (g : GameState P M ME S) (target_player : P) (orig_state : S) : Mcts P M S :=
  { tree := [Node.new g none none orig_state], cur_node_id := 0, target_player }

/-- `Mcts::make_move` from `mcts.rs`: remove `mv` from the node's
untried moves, apply it to the node's state (`from_move`; the Rust
`.unwrap()` panic is `none`), push the new child node and link it. The
new child's handle is returned. -/
def make_move [DecidableEq M] [Inhabited S] (g : GameState P M ME S) (m : Mcts P M S)
    (node_id : Nat) (mv : M) : Option (Mcts P M S × Nat) :=
  let node := m.get_node node_id
  let node1 := { node with untried_mvs := node.untried_mvs.filter (fun x => decide (x ≠ mv)) }
  match g.from_move node.state mv with
  | Except.error _ => none
  | Except.ok state =>
    let m1 : Mcts P M S := { m with tree := m.tree.set node_id node1 }
    let pushed := m1.push_node (Node.new g (some mv) (some node_id) state)
    let m2 := pushed.1
    let child_id := pushed.2
    let parent := m2.get_node node_id
    some ({ m2 with tree :=
              m2.tree.set node_id { parent with child_nodes := parent.child_nodes ++ [child_id] } },
          child_id)

/-- `Mcts::update_move` from `mcts.rs`: the quality-of-life player check
(`panic!` is `none`), then move the root to the matching child (the Rust
scan keeps the last match), creating it through `make_move` when no
child matches. -/
def update_move [DecidableEq P] [DecidableEq M] [Inhabited S] (g : GameState P M ME S)
    (m : Mcts P M S) (mv : M) (for_target_player : Bool) : Option (Mcts P M S) :=
  let tgt := m.target_player
  let node := m.get_cur_node
  let target_is_current : Bool := decide (tgt = g.get_current_player node.state)
  if for_target_player && !target_is_current then none
  else if !for_target_player && target_is_current then none
  else
    let next_id : Option Nat := node.child_nodes.foldl
      (fun acc child_id =>
        match (m.get_node child_id).mv with
        | some mm => if mm = mv then some child_id else acc
        | none => acc) none
    match next_id with
    | some child_id => some { m with cur_node_id := child_id }
    | none => (m.make_move g m.cur_node_id mv).map (fun pr => { pr.1 with cur_node_id := pr.2 })

/-- `Mcts::update_opponent_move` from `mcts.rs`. -/
def update_opponent_move [DecidableEq P] [DecidableEq M] [Inhabited S] (g : GameState P M ME S)
    (m : Mcts P M S) (mv : M) : Option (Mcts P M S) :=
  m.update_move g mv false

/-- `Mcts::update_target_move` from `mcts.rs`. -/
def update_target_move [DecidableEq P] [DecidableEq M] [Inhabited S] (g : GameState P M ME S)
    (m : Mcts P M S) (mv : M) : Option (Mcts P M S) :=
  m.update_move g mv true

end Mcts

/-- `Mcts::append_children_to` from `mcts.rs`: copy all children of the
node at `c_id` (whose `child_nodes` still hold handles into `old`) from
`old` onto the end of `n_tree`, recurse into each copied child, then
replace the `child_nodes` of `c_id` with the new handles. The Rust
recursion is replayed with explicit `fuel`; every reachable arena has
child handles strictly larger than their parent's, so `old.length` fuel
always suffices (`fuel = 0` is never hit there). -/
def append_children_to {M S : Type} [Inhabited S] (old : List (Node M S)) :
    Nat → Nat → List (Node M S) → List (Node M S)
  | 0, _, n_tree => n_tree
  | fuel + 1, c_id, n_tree =>
    let children := (n_tree.getD c_id default).child_nodes
    let start := children.foldl
      (fun (acc : List Nat × List (Node M S)) child_id =>
        (acc.1 ++ [acc.2.length],
         acc.2 ++ [{ old.getD child_id default with parent_node := some c_id }]))
      ([], n_tree)
    let n_children := start.1
    let n_tree2 := n_children.foldl (fun t id => append_children_to old fuel id t) start.2
    n_tree2.set c_id { n_tree2.getD c_id default with child_nodes := n_children }

namespace Mcts

variable {P M ME S : Type}

/-- `Mcts::prune_nodes` from `mcts.rs`: rebuild the arena with a copy of
the current root (parent cleared) at handle 0 followed by copies of its
descendants, and point `cur_node_id` at 0. -/
def prune_nodes [Inhabited S] (m : Mcts P M S) : Mcts P M S :=
  let cur_node := { m.get_cur_node with parent_node := none }
  let n_tree := append_children_to m.tree m.tree.length 0 [cur_node]
  { m with tree := n_tree, cur_node_id := 0 }

/-- `Mcts::phase_selection` from `mcts.rs`: descend while the node is
fully expanded and has children, stepping into the child chosen by
`select_max_child` under the UCB1 score — abstracted by the `oracle`
choice (see `StepParams`). Fuel replays the Rust recursion. -/
def phase_selection [Inhabited S] (m : Mcts P M S) (oracle : Nat → Nat) :
    Nat → Nat → Nat
  | 0, node_id => node_id
  | fuel + 1, node_id =>
    let node := m.get_node node_id
    if node.is_fully_expanded && node.has_children then
      m.phase_selection oracle fuel
        (node.child_nodes.getD (oracle node_id % node.child_nodes.length) 0)
    else node_id

/-- `Mcts::phase_expansion` from `mcts.rs`: pick an untried move (the
random `choose` abstracted by the `choice` index), create the child via
`make_move`; with no untried moves return the node itself. -/
def phase_expansion [DecidableEq M] [Inhabited S] (g : GameState P M ME S) (m : Mcts P M S)
    (node_id : Nat) (choice : Nat) : Option (Mcts P M S × Nat) :=
  match (m.get_node node_id).untried_mvs with
  | [] => some (m, node_id)
  | x :: xs => m.make_move g node_id ((x :: xs).getD (choice % (x :: xs).length) x)

/-- `Mcts::phase_backprop` from `mcts.rs`: update the node and walk the
`parent_node` chain to the root, updating every node passed. Fuel
replays the Rust loop; parents of reachable arenas strictly decrease, so
`tree.length` fuel suffices. -/
def phase_backprop [DecidableEq P] [Inhabited S] (g : GameState P M ME S) :
    Nat → Mcts P M S → Nat → Option P → Mcts P M S
  | 0, m, _, _ => m
  | fuel + 1, m, node_id, winner =>
    let m1 : Mcts P M S := { m with tree := m.tree.set node_id ((m.get_node node_id).update g winner) }
    match (m.get_node node_id).parent_node with
    | some parent_node_id => phase_backprop g fuel m1 parent_node_id winner
    | none => m1

/-- `Mcts::phase_action_select` from `mcts.rs`: among the current root's
children pick the `wins/visits` maximiser (`select_max_child` over `f64`
abstracted by the index `k`); the `.unwrap()` panics on an empty child
list (`none` here), and the chosen child's `mv` is returned. -/
def phase_action_select [Inhabited S] (m : Mcts P M S) (k : Nat) : Option M :=
  match m.get_cur_node.child_nodes with
  | [] => none
  | c :: cs => (m.get_node ((c :: cs).getD (k % (c :: cs).length) c)).mv

/-- One pass of the `while` body of `Mcts::select_next_move`: selection,
expansion, rollout (its result is the `winner` parameter, the only data
the rollout contributes), backpropagation. -/
def search_round [DecidableEq P] [DecidableEq M] [Inhabited S] (g : GameState P M ME S)
    (m : Mcts P M S) (ps : StepParams P) : Option (Mcts P M S) :=
  let node := m.phase_selection ps.oracle m.tree.length m.cur_node_id
  match m.phase_expansion g node ps.choice with
  | none => none
  | some (m1, expanded) => some (m1.phase_backprop g m1.tree.length expanded ps.winner)

/-- The `while` loop of `Mcts::select_next_move`: the wall-clock budget
admits some number of iterations; the list of per-iteration choices
fixes that number and each iteration's draws. -/
def run_rounds [DecidableEq P] [DecidableEq M] [Inhabited S] (g : GameState P M ME S) :
    List (StepParams P) → Mcts P M S → Option (Mcts P M S)
  | [], m => some m
  | ps :: rest, m =>
    match m.search_round g ps with
    | none => none
    | some m' => run_rounds g rest m'

/-- `Mcts::select_next_move` from `mcts.rs`: prune, run the budgeted
loop, then action-select. Returns the chosen move, the post-call engine
state and the round count. -/
def select_next_move [DecidableEq P] [DecidableEq M] [Inhabited S] (g : GameState P M ME S)
    (m : Mcts P M S) (rounds : List (StepParams P)) (k : Nat) :
    Option (M × Mcts P M S × Nat) :=
  let m0 := m.prune_nodes
  match run_rounds g rounds m0 with
  | none => none
  | some m1 =>
    match m1.phase_action_select k with
    | none => none
    | some mv => some (mv, m1, rounds.length)

end Mcts

/-! ## Spec-side definitions used to state and prove the theorems -/

/-- The per-node statistics payload: every field of a node except the
parent/child handles, i.e. everything rerooting must preserve
bit-identically. -/
def Node.payload {M S : Type} (n : Node M S) : Option M × Nat × Nat × List M × S :=
  (n.mv, n.wins, n.visits, n.untried_mvs, n.state)

/-- `IsDesc t a b`: node handle `b` is reachable from `a` along
`child_nodes` edges of the arena `t` (reflexive-transitive closure). -/
inductive IsDesc {M S : Type} [Inhabited S] (t : List (Node M S)) : Nat → Nat → Prop
  | refl (a : Nat) : IsDesc t a a
  | step {a b c : Nat} : b ∈ (t.getD a default).child_nodes → IsDesc t b c → IsDesc t a c

/-- The handles of the strict descendants of `oc` in the arena `old`,
in the order `append_children_to` copies them into the rebuilt arena:
first the whole child block of `oc`, then, child by child, the block of
that child's strict descendants. -/
def desc_order {M S : Type} [Inhabited S] (old : List (Node M S)) : Nat → Nat → List Nat
  | 0, _ => []
  | fuel + 1, oc =>
    let cs := (old.getD oc default).child_nodes
    cs ++ (cs.map (desc_order old fuel)).flatten

/-- The nodes `append_children_to old fuel c n_tree` appends past the
end of `n_tree`, described positionally: `c` is the handle of the copy
of `oc` in the rebuilt arena and `L0` the position where the block
starts (i.e. `n_tree.length`). Each copied child carries the renumbered
parent handle and a `child_nodes` equal to the contiguous range where
its own child block lands. -/
def block_for {M S : Type} [Inhabited S] (old : List (Node M S)) : Nat → Nat → Nat → Nat → List (Node M S)
  | 0, _, _, _ => []
  | fuel + 1, oc, c, L0 =>
    let cs := (old.getD oc default).child_nodes
    let off : Nat → Nat := fun i =>
      L0 + cs.length + ((cs.take i).map (fun cid => (desc_order old fuel cid).length)).sum
    let headers := (List.range cs.length).map (fun i =>
      { old.getD (cs.getD i 0) default with
          parent_node := some c
          child_nodes := List.range' (off i) ((old.getD (cs.getD i 0) default).child_nodes.length) })
    let blocks := (List.range cs.length).map (fun i => block_for old fuel (cs.getD i 0) (L0 + i) (off i))
    headers ++ blocks.flatten

/-- Sum of the visit counts of the current root's children. -/
def Mcts.root_children_visit_sum {P M S : Type} [Inhabited S] (m : Mcts P M S) : Nat :=
  ((m.get_cur_node).child_nodes.map (fun c => (m.get_node c).visits)).sum

/-- The nodes scored by the UCB1 selector during one selection descent
from `node_id`: all children of every fully-expanded node with children
along the descent path. -/
def Mcts.sel_scored {P M S : Type} [Inhabited S] (m : Mcts P M S) (oracle : Nat → Nat) :
    Nat → Nat → List Nat
  | 0, _ => []
  | fuel + 1, node_id =>
    let node := m.get_node node_id
    if node.is_fully_expanded && node.has_children then
      node.child_nodes ++ m.sel_scored oracle fuel
        (node.child_nodes.getD (oracle node_id % node.child_nodes.length) 0)
    else []

/-- Engine states reachable from construction by the public operations:
`Mcts::new`, `update_target_move` / `update_opponent_move` (both are
`update_move`), and `select_next_move` (any budget, any random draws),
each completing without a panic. -/
inductive Reachable {P M ME S : Type} [DecidableEq P] [DecidableEq M] [Inhabited S]
    (g : GameState P M ME S) : Mcts P M S → Prop
  | init (target : P) (st : S) : Reachable g (Mcts.new g target st)
  | update {m m' : Mcts P M S} {mv : M} {b : Bool} :
      Reachable g m → Mcts.update_move g m mv b = some m' → Reachable g m'
  | select {m m' : Mcts P M S} {rounds : List (StepParams P)} {k n : Nat} {mv : M} :
      Reachable g m → Mcts.select_next_move g m rounds k = some (mv, m', n) → Reachable g m'

/-- The invariant of reachable engine states. Structural clauses hold
globally; the statistics clauses about move legality and positive visit
counts hold on the subtree of the current root (abandoned branches can
violate them until the next reroot discards them). -/
structure RInv {P M ME S : Type} [Inhabited S] (g : GameState P M ME S) (m : Mcts P M S) : Prop where
  cur_lt : m.cur_node_id < m.tree.length
  child_gt : ∀ i < m.tree.length, ∀ j ∈ (m.get_node i).child_nodes, i < j
  child_lt : ∀ i < m.tree.length, ∀ j ∈ (m.get_node i).child_nodes, j < m.tree.length
  child_parent : ∀ i < m.tree.length, ∀ j ∈ (m.get_node i).child_nodes,
    (m.get_node j).parent_node = some i
  child_nodup : ∀ i < m.tree.length, (m.get_node i).child_nodes.Nodup
  parent_mem : ∀ i < m.tree.length, ∀ p, (m.get_node i).parent_node = some p →
    p < i ∧ i ∈ (m.get_node p).child_nodes
  wins_le : ∀ i < m.tree.length, (m.get_node i).wins ≤ (m.get_node i).visits
  untried_sub : ∀ i < m.tree.length, ∀ x ∈ (m.get_node i).untried_mvs,
    x ∈ g.get_moves (m.get_node i).state
  desc_mv : ∀ j, IsDesc m.tree m.cur_node_id j → ∀ c ∈ (m.get_node j).child_nodes,
    ∃ mc, (m.get_node c).mv = some mc ∧ mc ∈ g.get_moves (m.get_node j).state
  desc_visits : ∀ j, IsDesc m.tree m.cur_node_id j → ∀ c ∈ (m.get_node j).child_nodes,
    1 ≤ (m.get_node c).visits

/-- The invariant holding during a search burst (after `prune_nodes`,
preserved by every `search_round`): the reachable-state invariant with
the statistics clauses global, the root at handle 0, and the root the
only node without a parent. -/
structure BInv {P M ME S : Type} [Inhabited S] (g : GameState P M ME S) (m : Mcts P M S)
    extends RInv g m : Prop where
  cur_eq : m.cur_node_id = 0
  root_parent : (m.get_node 0).parent_node = none
  parent_some : ∀ i < m.tree.length, i ≠ 0 → (m.get_node i).parent_node ≠ none
  all_mv : ∀ i < m.tree.length, ∀ c ∈ (m.get_node i).child_nodes,
    ∃ mc, (m.get_node c).mv = some mc ∧ mc ∈ g.get_moves (m.get_node i).state
  all_visits : ∀ i < m.tree.length, ∀ c ∈ (m.get_node i).child_nodes, 1 ≤ (m.get_node c).visits

/-! ## Concrete example states (used for witnesses and counterexamples) -/

/-- A Connect-4 position whose column 0 is completely full (six
alternating pieces dropped into column 0; no line of four arises). -/
def exFullCol : Connect4.Game :=
  (List.replicate 6 0).foldl (fun g m => (g.make_move m).1) Connect4.Game.new

/-- The board after the single opening move in column 3. -/
def exAfter3 : Connect4.Game := (Connect4.Game.new.make_move 3).1

/-- A finished game: Red's four consecutive own moves all drop into
column 0 (Yellow answers elsewhere), giving Red a vertical four. -/
def exRedWin : Connect4.Game :=
  [0, 1, 0, 1, 0, 2, 0].foldl (fun g m => (g.make_move m).1) Connect4.Game.new

/-- Deterministic per-round draws: always descend into the first child,
always expand the first untried move, rollout reports a draw. -/
def exP0 : StepParams Connect4.Player := { oracle := fun _ => 0, choice := 0, winner := none }

/-- A fresh engine for Red on the empty Connect-4 board. -/
def exM0 : Mcts Connect4.Player Connect4.Move Connect4.Game :=
  Mcts.new connect4Game Connect4.Player.Red Connect4.Game.new

/-- The per-round draws of an eight-round burst the concrete engine
realizes. Rounds 1-7 expand the root's seven children (the root is not
fully expanded, so selection stops there and the oracle is never
consulted); each `choice = 0` picks the first listed untried move, one
outcome of the uniformly random `choose`, giving children on moves
0,...,6 in order. The rollout winners are Yellow for rounds 1-6 and Red
for rounds 7-8, each realizable by some random playout from the one- or
two-stone position in question (the winning player stacks four in an
empty column while the other answers elsewhere). After round 7 the
child on move 6 is the unique UCB1 maximiser: its score of 1/1 plus
the exploration term strictly exceeds the six others' 0/1 plus the
bitwise identical exploration term by exactly 1, so the stable sort and
`.last()` of `select_max_child` choose it with no tie to break - the
round-8 oracle value 6 reproduces exactly that choice. Inside it the
node is not fully expanded, so the descent stops and expands its first
untried move (move 0, again a realizable `choose` outcome). -/
def exC4Rounds : List (StepParams Connect4.Player) :=
  (List.replicate 6
    ({ oracle := fun _ => 0, choice := 0, winner := some Connect4.Player.Yellow }
      : StepParams Connect4.Player))
  ++ [{ oracle := fun _ => 0, choice := 0, winner := some Connect4.Player.Red },
      { oracle := fun _ => 6, choice := 0, winner := some Connect4.Player.Red }]

/-- A full driver exchange realized by the engine under the draws of
`exC4Rounds`: the eight-round burst for Red from the fresh engine, the
returned move applied as the target's move, then a second, zero-round
burst on the rerooted engine. The action-select index 6 of the first
burst reproduces `select_max_child` exactly: the child on move 6 has
mean `wins/visits = 2/2 = 1` against `0/1 = 0` for the other six, a
strict maximum. The second burst's root (the copy of that child) has
exactly one child, so index 0 is again the code's choice and its
`wins/visits = 0/1` is a well-defined `f64`. The result records the
second burst's returned move, the visit-count sum of the root's
children after it, and its round count. -/
def exC4Pipeline : Option (Connect4.Move × Nat × Nat) :=
  match Mcts.select_next_move connect4Game exM0 exC4Rounds 6 with
  | none => none
  | some (mv1, m1, _) =>
    match Mcts.update_target_move connect4Game m1 mv1 with
    | none => none
    | some m2 =>
      match Mcts.select_next_move connect4Game m2 [] 0 with
      | none => none
      | some (mv2, mf, n) => some (mv2, mf.root_children_visit_sum, n)

/-! # Theorems -/

/-- **C1.** For every node and every winner argument, `Node::update`
increments `visits` by exactly 1; it increments `wins` by exactly 1 iff
the winner is `some` player equal to the node's state's previous player;
a `none` winner (draw) leaves `wins` unchanged, and no other field of
the node changes. -/
theorem node_update_spec {P M ME S : Type} [DecidableEq P] (g : GameState P M ME S)
    (n : Node M S) (winner : Option P) :
    (n.update g winner).visits = n.visits + 1 ∧
    ((n.update g winner).wins = n.wins + 1 ↔ winner = some (g.get_prev_player n.state)) ∧
    (winner = none → (n.update g winner).wins = n.wins) ∧
    (n.update g winner).mv = n.mv ∧ (n.update g winner).parent_node = n.parent_node ∧
    (n.update g winner).child_nodes = n.child_nodes ∧
    (n.update g winner).untried_mvs = n.untried_mvs ∧ (n.update g winner).state = n.state := by
  unfold Node.update
  cases winner with
  | none => simp
  | some w =>
    by_cases h : w = g.get_prev_player n.state <;> simp [h]

/-- **C8.** `Game::make_move` on a full column (every cell occupied, for
an in-range column) returns the `ColumnFull` error with the state
unchanged, and on a column index `≥ WIDTH` returns the `OutOfRange`
error with the state unchanged. -/
theorem connect4_make_move_rejects (g : Connect4.Game) (mv : Connect4.Move) :
    (mv < Connect4.WIDTH → (∀ c ∈ g.board.getD mv [], c.isSome) →
      g.make_move mv = (g, some (Connect4.MoveError.ColumnFull mv))) ∧
    (Connect4.WIDTH ≤ mv → g.make_move mv = (g, some (Connect4.MoveError.OutOfRange mv))) := by
  constructor
  · intro hlt hfull
    have hnone : (g.board.getD mv []).findIdx? (fun c => decide (c = none)) = none := by
      rw [List.findIdx?_eq_none_iff]
      intro x hx
      have := hfull x hx
      simp only [decide_eq_false_iff_not]
      intro hxe
      rw [hxe] at this
      simp at this
    show (if Connect4.WIDTH ≤ mv then (g, some (Connect4.MoveError.OutOfRange mv)) else _) = _
    rw [if_neg (not_le.mpr hlt)]
    simp only [hnone]
  · intro hge
    show (if Connect4.WIDTH ≤ mv then (g, some (Connect4.MoveError.OutOfRange mv)) else _) = _
    rw [if_pos hge]

/-- Witness for **C8**: the position with column 0 full rejects a move
into column 0 without changing state, and column 9 is out of range. -/
theorem connect4_make_move_rejects_witness :
    exFullCol.make_move 0 = (exFullCol, some (Connect4.MoveError.ColumnFull 0)) ∧
    Connect4.Game.new.make_move 9 = (Connect4.Game.new, some (Connect4.MoveError.OutOfRange 9)) :=
  ⟨(connect4_make_move_rejects exFullCol 0).1 (by decide) (by decide),
   (connect4_make_move_rejects Connect4.Game.new 9).2 (by decide)⟩

/-- **C9.** In the Connect-4 instance: after one move into column 3 from
the empty board, `get_moves` returns all 7 columns and the winner is
`none`; after Red's four consecutive own moves into column 0 complete a
vertical four, `get_winner` is Red and `get_moves` is empty. -/
theorem connect4_scenario :
    (exAfter3.get_moves = [0, 1, 2, 3, 4, 5, 6] ∧ exAfter3.get_winner = none) ∧
    (exRedWin.get_winner = some Connect4.Player.Red ∧ exRedWin.get_moves = []) := by
  decide

/-- Counterexample for **C4**: the second `select_next_move` call of
`exC4Pipeline` - a zero-iteration burst on an engine rerooted at a
child that kept a once-visited child of its own across the reroot -
completes (returns the move of that surviving child) while the sum of
the root children's visit counts is 1, not the iteration count 0.
Every random draw of the exchange is realizable by the engine and every
`select_max_child` call along it has a strict, tie-free maximum (see
`exC4Rounds` and `exC4Pipeline`). -/
theorem select_next_move_visit_sum_cex :
    exC4Pipeline = some (0, 1, 0) ∧ (1 : Nat) ≠ 0 :=
  ⟨by decide, by decide⟩

/-! ## List-indexing helper lemmas -/

section GetDHelpers

variable {A : Type}

theorem getD_append_lt (l l' : List A) (d : A) (n : Nat) (h : n < l.length) :
    (l ++ l').getD n d = l.getD n d := by
  simp [List.getD_eq_getElem?_getD, List.getElem?_append_left h]

theorem getD_concat_len (l : List A) (x : A) (d : A) :
    (l ++ [x]).getD l.length d = x := by
  simp [List.getD_eq_getElem?_getD, List.getElem?_concat_length]

theorem getD_set_eq (l : List A) (i : Nat) (x : A) (d : A) (h : i < l.length) :
    (l.set i x).getD i d = x := by
  simp [List.getD_eq_getElem?_getD, List.getElem?_set_self h]

theorem getD_set_ne (l : List A) (i j : Nat) (x : A) (d : A) (h : i ≠ j) :
    (l.set i x).getD j d = l.getD j d := by
  simp [List.getD_eq_getElem?_getD, List.getElem?_set_ne h]

theorem get_node_mid (l : List A) (i : Nat) (x y : A) (d : A) (h : i < l.length) :
    ((l.set i x) ++ [y]).getD i d = x := by
  rw [getD_append_lt _ _ _ _ (by simpa using h)]
  exact getD_set_eq _ _ _ _ h

theorem shape_getD_eq (l : List A) (i : Nat) (x y z : A) (d : A) (h : i < l.length) :
    (((l.set i x) ++ [y]).set i z).getD i d = z :=
  getD_set_eq _ _ _ _ (by simp; omega)

theorem shape_getD_ne (l : List A) (i j : Nat) (x y z : A) (d : A) (hji : j ≠ i)
    (hj : j < l.length) :
    (((l.set i x) ++ [y]).set i z).getD j d = l.getD j d := by
  rw [getD_set_ne _ _ _ _ _ (fun he => hji he.symm)]
  rw [getD_append_lt _ _ _ _ (by simpa using hj)]
  exact getD_set_ne _ _ _ _ _ (fun he => hji he.symm)

theorem shape_getD_len (l : List A) (i : Nat) (x y z : A) (d : A) (h : i < l.length) :
    (((l.set i x) ++ [y]).set i z).getD l.length d = y := by
  rw [getD_set_ne _ _ _ _ _ (Nat.ne_of_lt h)]
  rw [show l.length = (l.set i x).length from by simp]
  exact getD_concat_len _ _ _

end GetDHelpers

/-! ## Reduction equations and field lemmas for the engine operations -/

section EngineLemmas

variable {P M ME S : Type}

theorem select_next_move_eq [DecidableEq P] [DecidableEq M] [Inhabited S]
    (g : GameState P M ME S) (m : Mcts P M S) (rounds : List (StepParams P)) (k : Nat) :
    Mcts.select_next_move g m rounds k =
      match Mcts.run_rounds g rounds m.prune_nodes with
      | none => none
      | some m1 =>
        match m1.phase_action_select k with
        | none => none
        | some mv => some (mv, m1, rounds.length) := rfl

theorem search_round_eq [DecidableEq P] [DecidableEq M] [Inhabited S]
    (g : GameState P M ME S) (m : Mcts P M S) (ps : StepParams P) :
    m.search_round g ps =
      match m.phase_expansion g
          (m.phase_selection ps.oracle m.tree.length m.cur_node_id) ps.choice with
      | none => none
      | some (m1, expanded) =>
        some (m1.phase_backprop g m1.tree.length expanded ps.winner) := rfl

theorem update_child_nodes [DecidableEq P] (g : GameState P M ME S) (n : Node M S)
    (w : Option P) : (n.update g w).child_nodes = n.child_nodes := by
  cases w <;> simp only [Node.update] <;> try split
  all_goals rfl

theorem update_untried_mvs [DecidableEq P] (g : GameState P M ME S) (n : Node M S)
    (w : Option P) : (n.update g w).untried_mvs = n.untried_mvs := by
  cases w <;> simp only [Node.update] <;> try split
  all_goals rfl

theorem update_state [DecidableEq P] (g : GameState P M ME S) (n : Node M S)
    (w : Option P) : (n.update g w).state = n.state := by
  cases w <;> simp only [Node.update] <;> try split
  all_goals rfl

theorem update_mv [DecidableEq P] (g : GameState P M ME S) (n : Node M S)
    (w : Option P) : (n.update g w).mv = n.mv := by
  cases w <;> simp only [Node.update] <;> try split
  all_goals rfl

theorem update_parent_node [DecidableEq P] (g : GameState P M ME S) (n : Node M S)
    (w : Option P) : (n.update g w).parent_node = n.parent_node := by
  cases w <;> simp only [Node.update] <;> try split
  all_goals rfl

theorem update_visits [DecidableEq P] (g : GameState P M ME S) (n : Node M S)
    (w : Option P) : (n.update g w).visits = n.visits + 1 := by
  cases w <;> simp only [Node.update] <;> try split
  all_goals rfl

theorem update_wins_bounds [DecidableEq P] (g : GameState P M ME S) (n : Node M S)
    (w : Option P) : n.wins ≤ (n.update g w).wins ∧ (n.update g w).wins ≤ n.wins + 1 := by
  cases w <;> simp only [Node.update] <;> try split
  all_goals simp

/-- What a successful `Mcts::make_move` produces, field by field: the
applied move succeeded, the child handle is the old arena length, all
other nodes are untouched, the parent loses `mv` from its untried moves
and gains the child handle, and the new node is `Node::new` of the
resulting state. -/
theorem make_move_some_spec [DecidableEq M] [Inhabited S] (g : GameState P M ME S)
    (m : Mcts P M S) (nid : Nat) (mv : M) (m' : Mcts P M S) (cid : Nat)
    (hn : nid < m.tree.length) (h : m.make_move g nid mv = some (m', cid)) :
    ∃ st, g.from_move (m.get_node nid).state mv = Except.ok st ∧
      cid = m.tree.length ∧
      m'.cur_node_id = m.cur_node_id ∧ m'.target_player = m.target_player ∧
      m'.tree.length = m.tree.length + 1 ∧
      (∀ j < m.tree.length, j ≠ nid → m'.get_node j = m.get_node j) ∧
      (m'.get_node nid).untried_mvs
        = (m.get_node nid).untried_mvs.filter (fun x => decide (x ≠ mv)) ∧
      (m'.get_node nid).child_nodes = (m.get_node nid).child_nodes ++ [m.tree.length] ∧
      (m'.get_node nid).mv = (m.get_node nid).mv ∧
      (m'.get_node nid).parent_node = (m.get_node nid).parent_node ∧
      (m'.get_node nid).wins = (m.get_node nid).wins ∧
      (m'.get_node nid).visits = (m.get_node nid).visits ∧
      (m'.get_node nid).state = (m.get_node nid).state ∧
      m'.get_node m.tree.length = Node.new g (some mv) (some nid) st := by
  unfold Mcts.make_move Mcts.push_node at h
  cases hfm : g.from_move (m.get_node nid).state mv with
  | error e => simp only [hfm] at h; exact Option.noConfusion h
  | ok st =>
    simp only [hfm, Option.some.injEq, Prod.mk.injEq] at h
    obtain ⟨hm', hcid⟩ := h
    subst hm'
    subst hcid
    refine ⟨st, rfl, by simp, rfl, rfl, by simp, ?_, ?_, ?_, ?_, ?_, ?_, ?_, ?_, ?_⟩
    · intro j hj hjne
      simp only [Mcts.get_node]
      rw [shape_getD_ne _ _ _ _ _ _ _ hjne hj]
    all_goals simp only [Mcts.get_node]
    all_goals first
      | (rw [shape_getD_eq _ _ _ _ _ _ hn]
         try rw [get_node_mid _ _ _ _ _ hn]
         try simp)
      | (rw [shape_getD_len _ _ _ _ _ _ hn])

theorem make_move_ok [DecidableEq M] [Inhabited S] (g : GameState P M ME S) (m : Mcts P M S)
    (nid : Nat) (mv : M) (st : S)
    (hok : g.from_move (m.get_node nid).state mv = Except.ok st) :
    ∃ m', m.make_move g nid mv = some m' := by
  unfold Mcts.make_move Mcts.push_node
  simp only [hok]
  exact ⟨_, rfl⟩

/-- The child scan in `Mcts::update_move` finds nothing when no child
carries the move. -/
theorem update_move_scan_none [DecidableEq M] [Inhabited S] (m : Mcts P M S) (mv : M)
    (cs : List Nat) (h : ∀ c ∈ cs, (m.get_node c).mv ≠ some mv) :
    cs.foldl (fun acc child_id =>
      match (m.get_node child_id).mv with
      | some mm => if mm = mv then some child_id else acc
      | none => acc) none = none := by
  induction cs with
  | nil => rfl
  | cons c rest ih =>
    have hc := h c (by simp)
    have hstep : (match (m.get_node c).mv with
        | some mm => if mm = mv then some c else (none : Option Nat)
        | none => none) = none := by
      cases hmv : (m.get_node c).mv with
      | none => rfl
      | some mm =>
        have hne : mm ≠ mv := fun he => hc (by rw [hmv, he])
        simp [hne]
    simp only [List.foldl_cons, hstep]
    exact ih (fun x hx => h x (by simp [hx]))

end EngineLemmas

section ClaimC5

variable {P M ME S : Type}

/-- **C5.** `update_move` (hence `update_target_move` / `update_opponent_move`,
which are its two instantiations) called with a move `mv` no child of the
current root carries, with the player check passing and the move
applicable: exactly one new node is created (the arena grows by one and
all other nodes are untouched), its `mv` is the given move, its parent is
the old root's handle, its state is the result of applying the move to
the old root's state (`from_move`), and it becomes the new current
root. -/
theorem update_move_unexplored_spec [DecidableEq P] [DecidableEq M] [Inhabited S]
    (g : GameState P M ME S) (m : Mcts P M S) (mv : M)
    (b : Bool) (st : S) (hcur : m.cur_node_id < m.tree.length)
    (hplayer : (b = true → m.target_player = g.get_current_player m.get_cur_node.state) ∧
               (b = false → m.target_player ≠ g.get_current_player m.get_cur_node.state))
    (hnochild : ∀ c ∈ (m.get_cur_node).child_nodes, (m.get_node c).mv ≠ some mv)
    (hok : g.from_move (m.get_cur_node).state mv = Except.ok st) :
    ∃ m', Mcts.update_move g m mv b = some m' ∧
      m'.cur_node_id = m.tree.length ∧
      m'.tree.length = m.tree.length + 1 ∧
      (m'.get_cur_node).mv = some mv ∧
      (m'.get_cur_node).parent_node = some m.cur_node_id ∧
      (m'.get_cur_node).state = st ∧
      (m'.get_cur_node).child_nodes = [] ∧
      (m'.get_cur_node).wins = 0 ∧ (m'.get_cur_node).visits = 0 ∧
      (m'.get_cur_node).untried_mvs = g.get_moves st ∧
      (∀ j < m.tree.length, j ≠ m.cur_node_id → m'.get_node j = m.get_node j) := by
  obtain ⟨mc, hmk⟩ := make_move_ok g m m.cur_node_id mv st hok
  obtain ⟨st', hfm', hcid, hcur1, htgt1, hlen1, hframe, hu, hc, hmv, hp, hw, hv, hs, hnew⟩ :=
    make_move_some_spec g m m.cur_node_id mv mc.1 mc.2 hcur (by rw [hmk])
  have hst : st' = st := by
    have h2 : g.from_move (m.get_node m.cur_node_id).state mv = Except.ok st := hok
    rw [hfm'] at h2
    exact Except.ok.inj h2
  subst hst
  have hguard1 :
      (b && !(decide (m.target_player = g.get_current_player m.get_cur_node.state))) = false := by
    cases b with
    | true => simp [hplayer.1 rfl]
    | false => rfl
  have hguard2 :
      (!b && (decide (m.target_player = g.get_current_player m.get_cur_node.state))) = false := by
    cases b with
    | true => rfl
    | false => simp [hplayer.2 rfl]
  have hscan := update_move_scan_none m mv (m.get_cur_node).child_nodes hnochild
  refine ⟨{ mc.1 with cur_node_id := mc.2 }, ?_, ?_, ?_, ?_, ?_, ?_, ?_, ?_, ?_, ?_, ?_⟩
  · unfold Mcts.update_move
    simp only [hguard1, hguard2, Bool.false_eq_true, if_false, hscan, hmk, Option.map_some']
  · exact hcid
  · exact hlen1
  · show (Mcts.get_node mc.1 mc.2).mv = _
    rw [hcid, hnew]
    rfl
  · show (Mcts.get_node mc.1 mc.2).parent_node = _
    rw [hcid, hnew]
    rfl
  · show (Mcts.get_node mc.1 mc.2).state = _
    rw [hcid, hnew]
    rfl
  · show (Mcts.get_node mc.1 mc.2).child_nodes = _
    rw [hcid, hnew]
    rfl
  · show (Mcts.get_node mc.1 mc.2).wins = _
    rw [hcid, hnew]
    rfl
  · show (Mcts.get_node mc.1 mc.2).visits = _
    rw [hcid, hnew]
    rfl
  · show (Mcts.get_node mc.1 mc.2).untried_mvs = _
    rw [hcid, hnew]
    rfl
  · intro j hj hjne
    show Mcts.get_node mc.1 j = _
    exact hframe j hj hjne

/-- Witness for **C5**: an unexplored target-player move (column 3) on
the fresh engine creates the expected child and makes it the root. -/
theorem update_move_unexplored_spec_witness :
    ∃ m', Mcts.update_move connect4Game exM0 3 true = some m' ∧
      m'.cur_node_id = exM0.tree.length ∧
      (m'.get_cur_node).mv = some 3 ∧
      (m'.get_cur_node).parent_node = some exM0.cur_node_id ∧
      (m'.get_cur_node).state = exAfter3 := by
  obtain ⟨m', h1, h2, _, h4, h5, h6, _⟩ :=
    update_move_unexplored_spec connect4Game exM0 3 true exAfter3 (by decide)
      (by decide) (by decide) (by rfl)
  exact ⟨m', h1, h2, h4, h5, h6⟩

end ClaimC5

section ClaimC10

variable {P M ME S : Type}

theorem append_children_to_childless [Inhabited S] (old : List (Node M S)) (fuel : Nat)
    (n : Node M S) (h : n.child_nodes = []) :
    append_children_to old fuel 0 [n] = [n] := by
  cases fuel with
  | zero => rfl
  | succ f =>
    unfold append_children_to
    simp only [List.getD_cons_zero, h, List.foldl_nil, List.set_cons_zero]
    rw [← h]

/-- Rerooting an engine whose current root has no children yields the
one-node arena holding the root copy. -/
theorem prune_childless [Inhabited S] (m : Mcts P M S)
    (h : (m.get_cur_node).child_nodes = []) :
    m.prune_nodes = { m with
      tree := [({ m.get_cur_node with parent_node := none })], cur_node_id := 0 } := by
  unfold Mcts.prune_nodes
  simp only [append_children_to_childless m.tree m.tree.length
    ({ m.get_cur_node with parent_node := none }) (by simpa using h)]

/-- A search iteration on a one-node arena whose root is terminal (no
children, no untried moves) only bumps the root's statistics. -/
theorem search_round_terminal [DecidableEq P] [DecidableEq M] [Inhabited S]
    (g : GameState P M ME S) (ps : StepParams P) (m : Mcts P M S)
    (h0 : m.cur_node_id = 0) (h1 : m.tree.length = 1)
    (hc : (m.get_node 0).child_nodes = []) (hu : (m.get_node 0).untried_mvs = []) :
    ∃ m', m.search_round g ps = some m' ∧ m'.cur_node_id = 0 ∧ m'.tree.length = 1 ∧
      (m'.get_node 0).child_nodes = [] ∧ (m'.get_node 0).untried_mvs = [] := by
  have hsel : m.phase_selection ps.oracle m.tree.length m.cur_node_id = 0 := by
    rw [h1, h0]
    have hhc : (m.get_node 0).has_children = false := by
      simp [Node.has_children, hc]
    unfold Mcts.phase_selection
    simp [hhc]
  have hexp : m.phase_expansion g 0 ps.choice = some (m, 0) := by
    unfold Mcts.phase_expansion
    rw [hu]
  unfold Mcts.search_round
  rw [hsel]
  simp only [hexp]
  refine ⟨_, rfl, ?_⟩
  rw [h1]
  unfold Mcts.phase_backprop
  cases hp : (m.get_node 0).parent_node with
  | none =>
    refine ⟨h0, by simp [h1], ?_, ?_⟩ <;>
      · simp only [Mcts.get_node]
        rw [getD_set_eq _ _ _ _ (by omega)]
        simp only [update_child_nodes, update_untried_mvs]
        first
          | exact hc
          | exact hu
  | some p =>
    unfold Mcts.phase_backprop
    refine ⟨h0, by simp [h1], ?_, ?_⟩ <;>
      · simp only [Mcts.get_node]
        rw [getD_set_eq _ _ _ _ (by omega)]
        simp only [update_child_nodes, update_untried_mvs]
        first
          | exact hc
          | exact hu

theorem run_rounds_terminal [DecidableEq P] [DecidableEq M] [Inhabited S]
    (g : GameState P M ME S) (rounds : List (StepParams P)) :
    ∀ m : Mcts P M S, m.cur_node_id = 0 → m.tree.length = 1 →
      (m.get_node 0).child_nodes = [] → (m.get_node 0).untried_mvs = [] →
      ∃ m', Mcts.run_rounds g rounds m = some m' ∧ m'.cur_node_id = 0 ∧ m'.tree.length = 1 ∧
        (m'.get_node 0).child_nodes = [] ∧ (m'.get_node 0).untried_mvs = [] := by
  induction rounds with
  | nil => exact fun m h0 h1 hc hu => ⟨m, rfl, h0, h1, hc, hu⟩
  | cons ps rest ih =>
    intro m h0 h1 hc hu
    obtain ⟨m1, hr, h0', h1', hc', hu'⟩ := search_round_terminal g ps m h0 h1 hc hu
    obtain ⟨m', hrun, props⟩ := ih m1 h0' h1' hc' hu'
    refine ⟨m', ?_, props⟩
    unfold Mcts.run_rounds
    rw [hr]
    exact hrun

theorem phase_action_select_none [Inhabited S] (m : Mcts P M S) (k : Nat)
    (h : (m.get_cur_node).child_nodes = []) : m.phase_action_select k = none := by
  unfold Mcts.phase_action_select
  rw [h]

/-- **C10.** When the current root has no children at the time of the
call, `select_next_move` ends in the action-selection `unwrap` panic
(modelled by `none`) instead of returning a move: with a zero-iteration
budget, and likewise with any budget when the root is terminal (a node
built from a state with no legal moves has `untried_mvs = []`, so no
iteration can ever give the root a child). -/
theorem select_childless_panics [DecidableEq P] [DecidableEq M] [Inhabited S]
    (g : GameState P M ME S) (m : Mcts P M S)
    (rounds : List (StepParams P)) (k : Nat)
    (hchild : (m.get_cur_node).child_nodes = []) :
    (rounds = [] → Mcts.select_next_move g m rounds k = none) ∧
    ((m.get_cur_node).untried_mvs = [] → Mcts.select_next_move g m rounds k = none) := by
  have hpr := prune_childless m hchild
  have hact := phase_action_select_none
    ({ m with tree := [({ m.get_cur_node with parent_node := none })], cur_node_id := 0 }) k
    (by simpa [Mcts.get_cur_node, Mcts.get_node] using hchild)
  constructor
  · rintro rfl
    rw [select_next_move_eq, hpr]
    simp only [Mcts.run_rounds]
    simp only [hact]
  · intro hu
    obtain ⟨m', hrun, h0', h1', hc', hu'⟩ := run_rounds_terminal g rounds
      ({ m with tree := [({ m.get_cur_node with parent_node := none })], cur_node_id := 0 })
      rfl (by simp)
      (by simpa [Mcts.get_node] using hchild)
      (by simpa [Mcts.get_node] using hu)
    rw [select_next_move_eq, hpr, hrun]
    simp only [phase_action_select_none m' k
      (by show (m'.get_node m'.cur_node_id).child_nodes = []; rw [h0']; exact hc')]

/-- Witness for **C10**: on an engine rooted at a finished game (Red has
already won, so no legal moves), `select_next_move` panics both with an
empty budget and with two iterations of budget. -/
theorem select_childless_panics_witness :
    Mcts.select_next_move connect4Game
      (Mcts.new connect4Game Connect4.Player.Red exRedWin) [] 0 = none ∧
    Mcts.select_next_move connect4Game
      (Mcts.new connect4Game Connect4.Player.Red exRedWin) (List.replicate 2 exP0) 0 = none :=
  ⟨(select_childless_panics connect4Game
      (Mcts.new connect4Game Connect4.Player.Red exRedWin) [] 0 (by decide)).1 rfl,
   (select_childless_panics connect4Game
      (Mcts.new connect4Game Connect4.Player.Red exRedWin) (List.replicate 2 exP0) 0
      (by decide)).2 (by decide)⟩

end ClaimC10
section BlockLemmas

variable {A B : Type} {M S : Type} [Inhabited S]

theorem getD_map_lt (l : List A) (f : A → B) (i : Nat) (d : B) (d0 : A) (h : i < l.length) :
    (l.map f).getD i d = f (l.getD i d0) := by
  simp [List.getD_eq_getElem?_getD, List.getElem?_map,
    List.getElem?_eq_getElem h, List.getElem?_eq_getElem (show i < (l.map f).length by simpa using h)]

theorem range_map_getD (cs : List A) (d0 : A) (f : A → B) :
    (List.range cs.length).map (fun i => f (cs.getD i d0)) = cs.map f := by
  induction cs with
  | nil => rfl
  | cons c rest ih =>
    rw [show (c :: rest).length = rest.length + 1 from rfl, List.range_succ_eq_map]
    simp only [List.map_cons, List.getD_cons_zero, List.map_map]
    congr 1

theorem block_for_length (old : List (Node M S)) :
    ∀ (fuel : Nat) (oc c L0 : Nat),
      (block_for old fuel oc c L0).length = (desc_order old fuel oc).length := by
  intro fuel
  induction fuel with
  | zero => intro oc c L0; rfl
  | succ fuel ih =>
    intro oc c L0
    simp only [block_for, desc_order]
    simp only [List.length_append, List.length_map, List.length_range, List.length_flatten,
      List.map_map]
    congr 1
    have hfun : (List.length ∘ fun i => block_for old fuel
          ((old.getD oc default).child_nodes.getD i 0) (L0 + i)
          (L0 + (old.getD oc default).child_nodes.length
            + (((old.getD oc default).child_nodes.take i).map
                (fun cid => (desc_order old fuel cid).length)).sum))
        = fun i => (desc_order old fuel ((old.getD oc default).child_nodes.getD i 0)).length := by
      funext i
      simp [Function.comp, ih]
    rw [hfun, range_map_getD _ 0 (fun cid => (desc_order old fuel cid).length)]
    rfl

end BlockLemmas
section FoldLemmas

variable {M S : Type} [Inhabited S]

theorem build_children_fold (old : List (Node M S)) (c_id : Nat) :
    ∀ (cs : List Nat) (acc : List Nat) (t : List (Node M S)),
      cs.foldl (fun (acc : List Nat × List (Node M S)) child_id =>
          (acc.1 ++ [acc.2.length],
           acc.2 ++ [{ old.getD child_id default with parent_node := some c_id }]))
        (acc, t)
      = (acc ++ List.range' t.length cs.length,
         t ++ cs.map (fun child_id =>
           { old.getD child_id default with parent_node := some c_id })) := by
  intro cs
  induction cs with
  | nil => simp
  | cons a rest ih =>
    intro acc t
    simp only [List.foldl_cons]
    rw [ih]
    simp [List.range'_succ, List.append_assoc]

theorem getD_append_exact {A : Type} (l l' : List A) (d : A) :
    (l ++ l').getD l.length d = l'.getD 0 d := by
  simp [List.getD_eq_getElem?_getD, List.getElem?_append_right (Nat.le_refl l.length)]

theorem getD_mem {A : Type} (l : List A) (t : Nat) (d : A) (h : t < l.length) :
    l.getD t d ∈ l := by
  rw [List.getD_eq_getElem?_getD, List.getElem?_eq_getElem h]
  exact List.getElem_mem h

end FoldLemmas
section MainFold

variable {M S : Type} [Inhabited S]

theorem fold_append_blocks (old : List (Node M S)) (fuel : Nat)
    (hIH : ∀ (oc c : Nat) (nT : List (Node M S)), oc < old.length →
      old.length - oc ≤ fuel → c < nT.length →
      (nT.getD c default).child_nodes = (old.getD oc default).child_nodes →
      append_children_to old fuel c nT
        = (nT.set c { nT.getD c default with
            child_nodes := List.range' nT.length (old.getD oc default).child_nodes.length })
          ++ block_for old fuel oc c nT.length) :
    ∀ (ids : List Nat) (T0 pend T2 : List (Node M S)) (cpar : Nat),
      pend.length = ids.length →
      (∀ t < ids.length, ids.getD t 0 < old.length ∧ old.length - ids.getD t 0 ≤ fuel) →
      (∀ t < ids.length, pend.getD t default
        = { old.getD (ids.getD t 0) default with parent_node := some cpar }) →
      (List.range' T0.length ids.length).foldl
          (fun t q => append_children_to old fuel q t) (T0 ++ pend ++ T2)
      = T0
        ++ (List.range ids.length).map (fun t =>
             { old.getD (ids.getD t 0) default with
                parent_node := some cpar
                child_nodes := List.range' (T0.length + ids.length + T2.length
                  + ((ids.take t).map (fun cid => (desc_order old fuel cid).length)).sum)
                  ((old.getD (ids.getD t 0) default).child_nodes.length) })
        ++ T2
        ++ ((List.range ids.length).map (fun t =>
              block_for old fuel (ids.getD t 0) (T0.length + t)
                (T0.length + ids.length + T2.length
                  + ((ids.take t).map (fun cid => (desc_order old fuel cid).length)).sum))).flatten := by
  intro ids
  induction ids with
  | nil =>
    intro T0 pend T2 cpar hlen _ _
    have : pend = [] := List.length_eq_zero.mp hlen
    subst this
    simp
  | cons a rest ih =>
    intro T0 pend T2 cpar hlen hbound hp
    cases pend with
    | nil => simp at hlen
    | cons p0 prest =>
      have hn : prest.length = rest.length := by simpa using hlen
      have hp0 : p0 = { old.getD a default with parent_node := some cpar } := by
        have := hp 0 (by simp)
        simpa using this
      have hlen2 : (T0 ++ (p0 :: prest) ++ T2).length
          = T0.length + (rest.length + 1) + T2.length := by
        simp [hn]
        omega
      -- peel the first position
      rw [show List.range' T0.length (a :: rest).length
          = T0.length :: List.range' (T0.length + 1) rest.length from by
        simp [List.range'_succ]]
      simp only [List.foldl_cons]
      -- characterize the first recursive call
      have hgetc : (T0 ++ (p0 :: prest) ++ T2).getD T0.length default = p0 := by
        rw [getD_append_lt _ _ _ _ (by simp)]
        rw [getD_append_exact]
        rfl
      have hchild : ((T0 ++ (p0 :: prest) ++ T2).getD T0.length default).child_nodes
          = (old.getD a default).child_nodes := by
        rw [hgetc, hp0]
      have hb0 := hbound 0 (by simp)
      simp only [List.getD_cons_zero] at hb0
      rw [hIH a T0.length (T0 ++ (p0 :: prest) ++ T2) hb0.1 hb0.2
        (by simp) hchild]
      -- simplify the set
      rw [hgetc]
      rw [List.set_append_left _ _ (by simp)]
      rw [List.set_append_right _ _ (Nat.le_refl T0.length)]
      rw [Nat.sub_self, List.set_cons_zero]
      rw [hlen2]
      -- regroup for the induction hypothesis
      rw [hp0]
      set x : Node M S := { old.getD a default with
        parent_node := some cpar
        child_nodes := List.range' (T0.length + (rest.length + 1) + T2.length)
          ((old.getD a default).child_nodes.length) } with hx
      set ba : List (Node M S) := block_for old fuel a T0.length
        (T0.length + (rest.length + 1) + T2.length) with hba
      have hregroup : (T0 ++ (x :: prest)) ++ T2 ++ ba
          = ((T0 ++ [x]) ++ prest) ++ (T2 ++ ba) := by
        simp [List.append_assoc]
      rw [hregroup]
      rw [show T0.length + 1 = (T0 ++ [x]).length from by simp]
      rw [ih (T0 ++ [x]) prest (T2 ++ ba) cpar
        (by simp [hn])
        (fun t ht => by
          have := hbound (t + 1) (by simp; omega)
          simpa using this)
        (fun t ht => by
          have := hp (t + 1) (by simp; omega)
          simpa using this)]
      -- align both sides
      simp only [List.length_cons, List.range_succ_eq_map, List.map_cons, List.map_map,
        List.flatten_cons, List.getD_cons_zero, List.getD_cons_succ, List.take_zero,
        List.take_succ_cons, List.map_nil, List.sum_nil, List.sum_cons, List.length_append,
        List.length_nil, List.singleton_append, List.append_assoc, Function.comp,
        Nat.add_zero, block_for_length, hba, hx]
      ring_nf
      congr 1
      congr 1
      · congr 1
        apply List.map_congr_left
        intro t ht
        simp only [Function.comp_apply, List.getD_cons_succ, List.take_succ_cons,
          List.map_cons, List.sum_cons]
        ring_nf
      · congr 1
        congr 1
        congr 1
        apply List.map_congr_left
        intro t ht
        simp only [Function.comp_apply, List.getD_cons_succ, List.take_succ_cons,
          List.map_cons, List.sum_cons, Nat.succ_eq_add_one]
        ring_nf
section MainEq

variable {M S : Type} [Inhabited S]

theorem append_eq_block (old : List (Node M S))
    (hwf : ∀ i < old.length, ∀ j ∈ (old.getD i default).child_nodes, i < j ∧ j < old.length) :
    ∀ (fuel : Nat) (oc c : Nat) (nTree : List (Node M S)),
      oc < old.length → old.length - oc ≤ fuel → c < nTree.length →
      (nTree.getD c default).child_nodes = (old.getD oc default).child_nodes →
      append_children_to old fuel c nTree
        = (nTree.set c { nTree.getD c default with
            child_nodes := List.range' nTree.length (old.getD oc default).child_nodes.length })
          ++ block_for old fuel oc c nTree.length := by
  intro fuel
  induction fuel with
  | zero =>
    intro oc c nTree hoc hfuel
    omega
  | succ fuel ihf =>
    intro oc c nTree hoc hfuel hc hchild
    have hstep : append_children_to old (fuel + 1) c nTree
        = (let children := (nTree.getD c default).child_nodes
           let start := children.foldl
             (fun (acc : List Nat × List (Node M S)) child_id =>
               (acc.1 ++ [acc.2.length],
                acc.2 ++ [{ old.getD child_id default with parent_node := some c }]))
             ([], nTree)
           let n_children := start.1
           let n_tree2 := n_children.foldl (fun t id => append_children_to old fuel id t) start.2
           n_tree2.set c { n_tree2.getD c default with child_nodes := n_children }) := rfl
    rw [hstep]
    simp only [hchild, build_children_fold, List.nil_append]
    have hbounds : ∀ t < (old.getD oc default).child_nodes.length,
        (old.getD oc default).child_nodes.getD t 0 < old.length ∧
        old.length - (old.getD oc default).child_nodes.getD t 0 ≤ fuel := by
      intro t ht
      have hmem : (old.getD oc default).child_nodes.getD t 0 ∈ (old.getD oc default).child_nodes :=
        getD_mem _ t 0 ht
      have := hwf oc hoc _ hmem
      omega
    have hp : ∀ t < (old.getD oc default).child_nodes.length,
        ((old.getD oc default).child_nodes.map (fun child_id =>
          { old.getD child_id default with parent_node := some c })).getD t default
        = { old.getD ((old.getD oc default).child_nodes.getD t 0) default with
            parent_node := some c } := by
      intro t ht
      exact getD_map_lt _ _ t _ 0 ht
    have hfold := fold_append_blocks old fuel
      (fun oc' c' nT' h1 h2 h3 h4 => ihf oc' c' nT' h1 h2 h3 h4)
      (old.getD oc default).child_nodes nTree
      ((old.getD oc default).child_nodes.map (fun child_id =>
        { old.getD child_id default with parent_node := some c }))
      [] c (by simp) hbounds hp
    simp only [List.append_nil, List.nil_append, List.append_assoc] at hfold
    rw [hfold]
    -- final set over the prefix
    rw [List.set_append_left _ _ hc]
    rw [getD_append_lt _ _ _ _ hc]
    -- align with block_for (fuel+1)
    show _ = _ ++ block_for old (fuel + 1) oc c nTree.length
    have hblock : block_for old (fuel + 1) oc c nTree.length
        = (List.range (old.getD oc default).child_nodes.length).map (fun i =>
            { old.getD ((old.getD oc default).child_nodes.getD i 0) default with
                parent_node := some c
                child_nodes := List.range' (nTree.length
                    + (old.getD oc default).child_nodes.length
                    + (((old.getD oc default).child_nodes.take i).map
                        (fun cid => (desc_order old fuel cid).length)).sum)
                  ((old.getD ((old.getD oc default).child_nodes.getD i 0) default).child_nodes.length) })
          ++ ((List.range (old.getD oc default).child_nodes.length).map (fun i =>
                block_for old fuel ((old.getD oc default).child_nodes.getD i 0) (nTree.length + i)
                  (nTree.length + (old.getD oc default).child_nodes.length
                    + (((old.getD oc default).child_nodes.take i).map
                        (fun cid => (desc_order old fuel cid).length)).sum))).flatten := rfl
    rw [hblock]
    simp only [List.length_nil, Nat.add_zero, List.append_assoc]
section FlattenHelpers

variable {A : Type}

theorem getD_append_plus (l l' : List A) (j : Nat) (d : A) :
    (l ++ l').getD (l.length + j) d = l'.getD j d := by
  simp [List.getD_eq_getElem?_getD, List.getElem?_append_right (Nat.le_add_right l.length j)]

theorem getD_append_plus' (l l' : List A) (n j : Nat) (d : A) (h : l.length = n) :
    (l ++ l').getD (n + j) d = l'.getD j d := by
  subst h
  exact getD_append_plus l l' j d

theorem range_map_getD_at {B : Type} (n k : Nat) (H : Nat → B) (d : B) (h : k < n) :
    ((List.range n).map H).getD k d = H k := by
  rw [getD_map_lt (List.range n) H k d 0 (by simpa using h)]
  congr 1
  simp [List.getD_eq_getElem?_getD, List.getElem?_range, h]

theorem sum_range_le (L : Nat → Nat) : ∀ (n i : Nat), i ≤ n →
    ((List.range i).map L).sum ≤ ((List.range n).map L).sum := by
  intro n
  induction n with
  | zero => intro i hi; simp [Nat.le_zero.mp hi]
  | succ n ih =>
    intro i hi
    rcases Nat.lt_or_ge i (n + 1) with h | h
    · have h2 : i ≤ n := by omega
      calc ((List.range i).map L).sum ≤ ((List.range n).map L).sum := ih i h2
        _ ≤ ((List.range (n + 1)).map L).sum := by
            rw [List.range_succ]
            simp
    · have : i = n + 1 := by omega
      subst this
      exact Nat.le_refl _

theorem sum_range_succ (L : Nat → Nat) (n : Nat) :
    ((List.range (n + 1)).map L).sum = ((List.range n).map L).sum + L n := by
  rw [List.range_succ]
  simp

theorem flatten_range_length (F : Nat → List A) (n : Nat) :
    (((List.range n).map F).flatten).length = ((List.range n).map (fun u => (F u).length)).sum := by
  rw [List.length_flatten, List.map_map]
  rfl

theorem flatten_range_getD (F : Nat → List A) (d : A) :
    ∀ (n i j : Nat), i < n → j < (F i).length →
      (((List.range n).map F).flatten).getD
        (((List.range i).map (fun u => (F u).length)).sum + j) d = (F i).getD j d := by
  intro n
  induction n with
  | zero => intro i j hi; omega
  | succ n ih =>
    intro i j hi hj
    rw [List.range_succ, List.map_append, List.flatten_append]
    rcases Nat.lt_or_ge i n with h | h
    · rw [getD_append_lt]
      · exact ih i j h hj
      · rw [flatten_range_length]
        have h1 : ((List.range i).map (fun u => (F u).length)).sum + (F i).length
            ≤ ((List.range n).map (fun u => (F u).length)).sum := by
          calc ((List.range i).map (fun u => (F u).length)).sum + (F i).length
              = ((List.range (i + 1)).map (fun u => (F u).length)).sum := (sum_range_succ _ i).symm
            _ ≤ _ := sum_range_le _ n (i + 1) h
        omega
    · have hieq : i = n := by omega
      subst hieq
      have hlen : (((List.range i).map F).flatten).length
          = ((List.range i).map (fun u => (F u).length)).sum := flatten_range_length F i
      rw [show ((List.range i).map (fun u => (F u).length)).sum + j
          = (((List.range i).map F).flatten).length + j from by rw [hlen]]
      rw [getD_append_plus]
      simp [List.getD_eq_getElem?_getD]

theorem flatten_range_decomp (F : Nat → List A) :
    ∀ (n t : Nat), t < ((List.range n).map (fun u => (F u).length)).sum →
      ∃ i j, i < n ∧ j < (F i).length ∧
        t = ((List.range i).map (fun u => (F u).length)).sum + j := by
  intro n
  induction n with
  | zero => intro t ht; simp at ht
  | succ n ih =>
    intro t ht
    rcases Nat.lt_or_ge t (((List.range n).map (fun u => (F u).length)).sum) with h | h
    · obtain ⟨i, j, h1, h2, h3⟩ := ih t h
      exact ⟨i, j, by omega, h2, h3⟩
    · refine ⟨n, t - ((List.range n).map (fun u => (F u).length)).sum, by omega, ?_, by omega⟩
      rw [sum_range_succ] at ht
      omega

end FlattenHelpers
section BlockMain

variable {M S : Type} [Inhabited S]

theorem take_sum_eq_range_sum (cs : List Nat) (f : Nat → Nat) :
    ∀ u, u ≤ cs.length →
      ((cs.take u).map f).sum = ((List.range u).map (fun t => f (cs.getD t 0))).sum := by
  intro u
  induction u with
  | zero => intro _; simp
  | succ u ih =>
    intro hu
    rw [List.take_succ, sum_range_succ]
    rw [List.getElem?_eq_getElem (by omega)]
    simp only [Option.toList_some, List.map_append, List.sum_append, List.map_cons,
      List.map_nil, List.sum_cons, List.sum_nil]
    rw [ih (by omega)]
    have hci : cs[u] = cs.getD u 0 := by
      simp [List.getD_eq_getElem?_getD, List.getElem?_eq_getElem (show u < cs.length by omega)]
    rw [hci]
    omega

theorem desc_order_succ (old : List (Node M S)) (fuel oc : Nat) :
    desc_order old (fuel + 1) oc
      = (old.getD oc default).child_nodes
        ++ ((List.range (old.getD oc default).child_nodes.length).map
            (fun u => desc_order old fuel ((old.getD oc default).child_nodes.getD u 0))).flatten := by
  show (old.getD oc default).child_nodes
        ++ ((old.getD oc default).child_nodes.map (desc_order old fuel)).flatten = _
  rw [range_map_getD _ 0 (desc_order old fuel)]

theorem children_le_desc (old : List (Node M S)) (fuel j : Nat) (hj : j < old.length)
    (hf : old.length - j ≤ fuel) :
    (old.getD j default).child_nodes.length ≤ (desc_order old fuel j).length := by
  cases fuel with
  | zero => omega
  | succ f =>
    rw [desc_order_succ]
    simp

theorem block_for_succ (old : List (Node M S)) (fuel oc c L0 : Nat) :
    block_for old (fuel + 1) oc c L0
      = (List.range (old.getD oc default).child_nodes.length).map (fun i =>
          { old.getD ((old.getD oc default).child_nodes.getD i 0) default with
              parent_node := some c
              child_nodes := List.range' (L0 + (old.getD oc default).child_nodes.length
                  + (((old.getD oc default).child_nodes.take i).map
                      (fun cid => (desc_order old fuel cid).length)).sum)
                ((old.getD ((old.getD oc default).child_nodes.getD i 0) default).child_nodes.length) })
        ++ ((List.range (old.getD oc default).child_nodes.length).map (fun i =>
              block_for old fuel ((old.getD oc default).child_nodes.getD i 0) (L0 + i)
                (L0 + (old.getD oc default).child_nodes.length
                  + (((old.getD oc default).child_nodes.take i).map
                      (fun cid => (desc_order old fuel cid).length)).sum))).flatten := rfl

end BlockMain
section BlockMain2

variable {M S : Type} [Inhabited S]

theorem block_for_main (old : List (Node M S))
    (hwf : ∀ i < old.length, ∀ j ∈ (old.getD i default).child_nodes, i < j ∧ j < old.length) :
    ∀ (fuel : Nat) (oc c L0 : Nat), oc < old.length → old.length - oc ≤ fuel → c < L0 →
    ∀ k, k < (desc_order old fuel oc).length →
      (oc < (desc_order old fuel oc).getD k 0 ∧ (desc_order old fuel oc).getD k 0 < old.length) ∧
      ((block_for old fuel oc c L0).getD k default).payload
        = (old.getD ((desc_order old fuel oc).getD k 0) default).payload ∧
      (∃ s, ((block_for old fuel oc c L0).getD k default).child_nodes
          = List.range' s ((old.getD ((desc_order old fuel oc).getD k 0) default).child_nodes.length)
        ∧ L0 + k < s
        ∧ s + ((old.getD ((desc_order old fuel oc).getD k 0) default).child_nodes.length)
            ≤ L0 + (desc_order old fuel oc).length
        ∧ (∀ i < ((old.getD ((desc_order old fuel oc).getD k 0) default).child_nodes.length),
            (desc_order old fuel oc).getD (s - L0 + i) 0
              = (old.getD ((desc_order old fuel oc).getD k 0) default).child_nodes.getD i 0
            ∧ ((block_for old fuel oc c L0).getD (s - L0 + i) default).parent_node
              = some (L0 + k))) ∧
      (∃ p, ((block_for old fuel oc c L0).getD k default).parent_node = some p ∧
        (k < (old.getD oc default).child_nodes.length →
          p = c ∧ (desc_order old fuel oc).getD k 0 = (old.getD oc default).child_nodes.getD k 0) ∧
        ((old.getD oc default).child_nodes.length ≤ k →
          L0 ≤ p ∧ p - L0 < k ∧
          (L0 + k) ∈ ((block_for old fuel oc c L0).getD (p - L0) default).child_nodes)) := by
  intro fuel
  induction fuel with
  | zero =>
    intro oc c L0 hoc hfuel
    omega
  | succ fuel ih =>
    intro oc c L0 hoc hfuel hcL0 k hk
    -- abbreviations
    have hcs_elem : ∀ u < (old.getD oc default).child_nodes.length,
        oc < (old.getD oc default).child_nodes.getD u 0 ∧
        (old.getD oc default).child_nodes.getD u 0 < old.length := by
      intro u hu
      exact hwf oc hoc _ (getD_mem _ u 0 hu)
    have hfuel_elem : ∀ u < (old.getD oc default).child_nodes.length,
        old.length - (old.getD oc default).child_nodes.getD u 0 ≤ fuel := by
      intro u hu
      have := hcs_elem u hu
      omega
    have hlenFBFD : ∀ q',
        ((List.range q').map (fun u =>
          (block_for old fuel ((old.getD oc default).child_nodes.getD u 0)
            (L0 + u)
            (L0 + (old.getD oc default).child_nodes.length
              + (((old.getD oc default).child_nodes.take u).map
                  (fun cid => (desc_order old fuel cid).length)).sum)).length)).sum
        = ((List.range q').map (fun u =>
            (desc_order old fuel ((old.getD oc default).child_nodes.getD u 0)).length)).sum := by
      intro q'
      congr 1
      apply List.map_congr_left
      intro u _
      exact block_for_length old fuel _ _ _
    have hDlen : (desc_order old (fuel + 1) oc).length
        = (old.getD oc default).child_nodes.length
          + ((List.range (old.getD oc default).child_nodes.length).map (fun u =>
              (desc_order old fuel ((old.getD oc default).child_nodes.getD u 0)).length)).sum := by
      rw [desc_order_succ, List.length_append, flatten_range_length]
    rcases Nat.lt_or_ge k (old.getD oc default).child_nodes.length with hklt | hkge
    · -- header entry
      have hBk : (block_for old (fuel + 1) oc c L0).getD k default
          = { old.getD ((old.getD oc default).child_nodes.getD k 0) default with
              parent_node := some c
              child_nodes := List.range' (L0 + (old.getD oc default).child_nodes.length
                  + (((old.getD oc default).child_nodes.take k).map
                      (fun cid => (desc_order old fuel cid).length)).sum)
                ((old.getD ((old.getD oc default).child_nodes.getD k 0) default).child_nodes.length) } := by
        rw [block_for_succ, getD_append_lt _ _ _ _ (by simpa using hklt)]
        rw [range_map_getD_at _ _ _ _ hklt]
      have hDk : (desc_order old (fuel + 1) oc).getD k 0
          = (old.getD oc default).child_nodes.getD k 0 := by
        rw [desc_order_succ, getD_append_lt _ _ _ _ hklt]
      refine ⟨?_, ?_, ?_, ?_⟩
      · rw [hDk]
        exact hcs_elem k hklt
      · rw [hBk, hDk]
        rfl
      · -- child range clause for a header
        refine ⟨L0 + (old.getD oc default).child_nodes.length
            + (((old.getD oc default).child_nodes.take k).map
                (fun cid => (desc_order old fuel cid).length)).sum, ?_, ?_, ?_, ?_⟩
        · rw [hBk, hDk]
        · omega
        · rw [hDk, hDlen]
          rw [take_sum_eq_range_sum _ _ k (by omega)]
          have h1 : (old.getD ((old.getD oc default).child_nodes.getD k 0) default).child_nodes.length
              ≤ (desc_order old fuel ((old.getD oc default).child_nodes.getD k 0)).length :=
            children_le_desc old fuel _ (hcs_elem k hklt).2 (hfuel_elem k hklt)
          have h2 : ((List.range k).map (fun u =>
                (desc_order old fuel ((old.getD oc default).child_nodes.getD u 0)).length)).sum
              + (desc_order old fuel ((old.getD oc default).child_nodes.getD k 0)).length
              ≤ ((List.range (old.getD oc default).child_nodes.length).map (fun u =>
                (desc_order old fuel ((old.getD oc default).child_nodes.getD u 0)).length)).sum := by
            rw [← sum_range_succ]
            exact sum_range_le _ _ _ (by omega)
          omega
        · intro i hi
          rw [hDk] at hi
          have hipos : (((old.getD oc default).child_nodes.take k).map
              (fun cid => (desc_order old fuel cid).length)).sum + i
              < ((List.range (old.getD oc default).child_nodes.length).map (fun u =>
                  (desc_order old fuel ((old.getD oc default).child_nodes.getD u 0)).length)).sum := by
            rw [take_sum_eq_range_sum _ _ k (by omega)]
            have h1 : i < (desc_order old fuel ((old.getD oc default).child_nodes.getD k 0)).length :=
              Nat.lt_of_lt_of_le hi (children_le_desc old fuel _ (hcs_elem k hklt).2 (hfuel_elem k hklt))
            have h2 : ((List.range k).map (fun u =>
                  (desc_order old fuel ((old.getD oc default).child_nodes.getD u 0)).length)).sum
                + (desc_order old fuel ((old.getD oc default).child_nodes.getD k 0)).length
                ≤ ((List.range (old.getD oc default).child_nodes.length).map (fun u =>
                  (desc_order old fuel ((old.getD oc default).child_nodes.getD u 0)).length)).sum := by
              rw [← sum_range_succ]
              exact sum_range_le _ _ _ (by omega)
            omega
          constructor
          · -- desc_order alignment
            rw [hDk]
            rw [desc_order_succ]
            rw [show L0 + (old.getD oc default).child_nodes.length
                + (((old.getD oc default).child_nodes.take k).map
                    (fun cid => (desc_order old fuel cid).length)).sum - L0 + i
                = (old.getD oc default).child_nodes.length
                  + ((((old.getD oc default).child_nodes.take k).map
                      (fun cid => (desc_order old fuel cid).length)).sum + i) from by omega]
            rw [getD_append_plus]
            rw [take_sum_eq_range_sum _ _ k (by omega)]
            rw [flatten_range_getD _ 0 _ k i hklt
              (Nat.lt_of_lt_of_le hi (children_le_desc old fuel _ (hcs_elem k hklt).2
                (hfuel_elem k hklt)))]
            cases hfe : fuel with
            | zero =>
              have h1 := hfuel_elem k hklt
              have h2 := hcs_elem k hklt
              omega
            | succ f2 =>
              rw [desc_order_succ]
              rw [getD_append_lt _ _ _ _ hi]
          · -- parent of the header's own child block
            rw [block_for_succ]
            rw [show L0 + (old.getD oc default).child_nodes.length
                + (((old.getD oc default).child_nodes.take k).map
                    (fun cid => (desc_order old fuel cid).length)).sum - L0 + i
                = (old.getD oc default).child_nodes.length
                  + ((((old.getD oc default).child_nodes.take k).map
                      (fun cid => (desc_order old fuel cid).length)).sum + i) from by omega]
            rw [getD_append_plus' _ _ _ _ _ (by simp)]
            have hjlt : i < (desc_order old fuel ((old.getD oc default).child_nodes.getD k 0)).length :=
              Nat.lt_of_lt_of_le hi (children_le_desc old fuel _ (hcs_elem k hklt).2 (hfuel_elem k hklt))
            rw [show (((old.getD oc default).child_nodes.take k).map
                  (fun cid => (desc_order old fuel cid).length)).sum + i
                = ((List.range k).map (fun u =>
                    (block_for old fuel ((old.getD oc default).child_nodes.getD u 0)
                      (L0 + u)
                      (L0 + (old.getD oc default).child_nodes.length
                        + (((old.getD oc default).child_nodes.take u).map
                            (fun cid => (desc_order old fuel cid).length)).sum)).length)).sum + i
                from by
                  rw [hlenFBFD,
                    ← take_sum_eq_range_sum (old.getD oc default).child_nodes
                      (fun cid => (desc_order old fuel cid).length) k (by omega)]]
            rw [flatten_range_getD _ default _ k i hklt
              (by rw [block_for_length]; exact hjlt)]
            -- the i-th entry of the k-th child's block is its header, parent = L0 + k
            have := ih ((old.getD oc default).child_nodes.getD k 0) (L0 + k)
              (L0 + (old.getD oc default).child_nodes.length
                + (((old.getD oc default).child_nodes.take k).map
                    (fun cid => (desc_order old fuel cid).length)).sum)
              (hcs_elem k hklt).2 (hfuel_elem k hklt) (by omega) i hjlt
            obtain ⟨-, -, -, ⟨p, hpar, hhdr, -⟩⟩ := this
            rw [hpar, (hhdr hi).1]
      · -- parent clause for a header
        refine ⟨c, ?_, ?_, ?_⟩
        · rw [hBk]
        · intro _
          exact ⟨rfl, hDk⟩
        · intro hge
          omega
    · -- entry inside a child's block
      have ht : k - (old.getD oc default).child_nodes.length
          < ((List.range (old.getD oc default).child_nodes.length).map (fun u =>
              (desc_order old fuel ((old.getD oc default).child_nodes.getD u 0)).length)).sum := by
        rw [hDlen] at hk
        omega
      obtain ⟨q, j, hq, hj, hteq⟩ := flatten_range_decomp
        (fun u => desc_order old fuel ((old.getD oc default).child_nodes.getD u 0))
        (old.getD oc default).child_nodes.length (k - (old.getD oc default).child_nodes.length) ht
      have hqelem := hcs_elem q hq
      have hqfuel := hfuel_elem q hq
      have hconv : (((old.getD oc default).child_nodes.take q).map
            (fun cid => (desc_order old fuel cid).length)).sum
          = ((List.range q).map (fun u =>
              (desc_order old fuel ((old.getD oc default).child_nodes.getD u 0)).length)).sum :=
        take_sum_eq_range_sum _ _ q (by omega)
      -- position translation inside the flattened child blocks
      have hBpos : ∀ r, r < (desc_order old fuel ((old.getD oc default).child_nodes.getD q 0)).length →
          (block_for old (fuel + 1) oc c L0).getD
            ((old.getD oc default).child_nodes.length
              + (((List.range q).map (fun u =>
                  (desc_order old fuel ((old.getD oc default).child_nodes.getD u 0)).length)).sum + r))
            default
          = (block_for old fuel ((old.getD oc default).child_nodes.getD q 0) (L0 + q)
              (L0 + (old.getD oc default).child_nodes.length
                + (((old.getD oc default).child_nodes.take q).map
                    (fun cid => (desc_order old fuel cid).length)).sum)).getD r default := by
        intro r hr
        rw [block_for_succ, getD_append_plus' _ _ _ _ _ (by simp)]
        rw [show ((List.range q).map (fun u =>
              (desc_order old fuel ((old.getD oc default).child_nodes.getD u 0)).length)).sum + r
            = ((List.range q).map (fun u =>
                (block_for old fuel ((old.getD oc default).child_nodes.getD u 0)
                  (L0 + u)
                  (L0 + (old.getD oc default).child_nodes.length
                    + (((old.getD oc default).child_nodes.take u).map
                        (fun cid => (desc_order old fuel cid).length)).sum)).length)).sum + r
            from by rw [hlenFBFD]]
        exact flatten_range_getD _ default _ q r hq (by rw [block_for_length]; exact hr)
      have hDpos : ∀ r, r < (desc_order old fuel ((old.getD oc default).child_nodes.getD q 0)).length →
          (desc_order old (fuel + 1) oc).getD
            ((old.getD oc default).child_nodes.length
              + (((List.range q).map (fun u =>
                  (desc_order old fuel ((old.getD oc default).child_nodes.getD u 0)).length)).sum + r))
            0
          = (desc_order old fuel ((old.getD oc default).child_nodes.getD q 0)).getD r 0 := by
        intro r hr
        rw [desc_order_succ, getD_append_plus]
        exact flatten_range_getD _ 0 _ q r hq hr
      have hBk : (block_for old (fuel + 1) oc c L0).getD k default
          = (block_for old fuel ((old.getD oc default).child_nodes.getD q 0) (L0 + q)
              (L0 + (old.getD oc default).child_nodes.length
                + (((old.getD oc default).child_nodes.take q).map
                    (fun cid => (desc_order old fuel cid).length)).sum)).getD j default := by
        rw [show k = (old.getD oc default).child_nodes.length
            + (((List.range q).map (fun u =>
                (desc_order old fuel ((old.getD oc default).child_nodes.getD u 0)).length)).sum + j)
            from by omega]
        exact hBpos j hj
      have hDk : (desc_order old (fuel + 1) oc).getD k 0
          = (desc_order old fuel ((old.getD oc default).child_nodes.getD q 0)).getD j 0 := by
        rw [show k = (old.getD oc default).child_nodes.length
            + (((List.range q).map (fun u =>
                (desc_order old fuel ((old.getD oc default).child_nodes.getD u 0)).length)).sum + j)
            from by omega]
        exact hDpos j hj
      obtain ⟨⟨ha1, ha2⟩, hpay, ⟨s, hsch, hslt, hsub, hali⟩, ⟨p, hpar, hhdr, hdeep⟩⟩ :=
        ih ((old.getD oc default).child_nodes.getD q 0) (L0 + q)
          (L0 + (old.getD oc default).child_nodes.length
            + (((old.getD oc default).child_nodes.take q).map
                (fun cid => (desc_order old fuel cid).length)).sum)
          hqelem.2 hqfuel (by omega) j hj
      have hLk : L0 + k = L0 + (old.getD oc default).child_nodes.length
          + (((old.getD oc default).child_nodes.take q).map
              (fun cid => (desc_order old fuel cid).length)).sum + j := by
        rw [hconv]
        omega
      have hsumq : ((List.range q).map (fun u =>
            (desc_order old fuel ((old.getD oc default).child_nodes.getD u 0)).length)).sum
            + (desc_order old fuel ((old.getD oc default).child_nodes.getD q 0)).length
          ≤ ((List.range (old.getD oc default).child_nodes.length).map (fun u =>
            (desc_order old fuel ((old.getD oc default).child_nodes.getD u 0)).length)).sum := by
        rw [← sum_range_succ]
        exact sum_range_le _ _ _ (by omega)
      refine ⟨?_, ?_, ?_, ?_⟩
      · rw [hDk]
        exact ⟨Nat.lt_trans hqelem.1 ha1, ha2⟩
      · rw [hBk, hDk]
        exact hpay
      · refine ⟨s, ?_, ?_, ?_, ?_⟩
        · rw [hBk, hDk]
          exact hsch
        · omega
        · rw [hDk, hDlen]
          omega
        · intro i hi
          rw [hDk] at hi
          have hposr : s - L0 + i
              = (old.getD oc default).child_nodes.length
                + (((List.range q).map (fun u =>
                    (desc_order old fuel ((old.getD oc default).child_nodes.getD u 0)).length)).sum
                  + (s - (L0 + (old.getD oc default).child_nodes.length
                      + (((old.getD oc default).child_nodes.take q).map
                          (fun cid => (desc_order old fuel cid).length)).sum) + i)) := by
            rw [hconv] at hslt ⊢
            omega
          have hrlt : s - (L0 + (old.getD oc default).child_nodes.length
              + (((old.getD oc default).child_nodes.take q).map
                  (fun cid => (desc_order old fuel cid).length)).sum) + i
              < (desc_order old fuel ((old.getD oc default).child_nodes.getD q 0)).length := by
            omega
          constructor
          · rw [hDk, hposr, hDpos _ hrlt]
            exact (hali i hi).1
          · rw [hposr, hBpos _ hrlt]
            rw [(hali i hi).2, hLk]
      · refine ⟨p, ?_, ?_, ?_⟩
        · rw [hBk]
          exact hpar
        · intro hlt
          omega
        · intro _
          rcases Nat.lt_or_ge j
            (old.getD ((old.getD oc default).child_nodes.getD q 0) default).child_nodes.length
            with hjh | hjd
          · obtain ⟨hpc, -⟩ := hhdr hjh
            have hBq : (block_for old (fuel + 1) oc c L0).getD q default
                = { old.getD ((old.getD oc default).child_nodes.getD q 0) default with
                    parent_node := some c
                    child_nodes := List.range' (L0 + (old.getD oc default).child_nodes.length
                        + (((old.getD oc default).child_nodes.take q).map
                            (fun cid => (desc_order old fuel cid).length)).sum)
                      ((old.getD ((old.getD oc default).child_nodes.getD q 0) default).child_nodes.length) } := by
              rw [block_for_succ, getD_append_lt _ _ _ _ (by simpa using hq)]
              rw [range_map_getD_at _ _ _ _ hq]
            refine ⟨by omega, by omega, ?_⟩
            rw [show p - L0 = q from by omega, hBq]
            show L0 + k ∈ List.range' _ _
            rw [List.mem_range'_1]
            omega
          · obtain ⟨hp1, hp2, hp3⟩ := hdeep hjd
            refine ⟨by omega, by omega, ?_⟩
            have hposp : p - L0
                = (old.getD oc default).child_nodes.length
                  + (((List.range q).map (fun u =>
                      (desc_order old fuel ((old.getD oc default).child_nodes.getD u 0)).length)).sum
                    + (p - (L0 + (old.getD oc default).child_nodes.length
                        + (((old.getD oc default).child_nodes.take q).map
                            (fun cid => (desc_order old fuel cid).length)).sum))) := by
              rw [hconv] at hp1 ⊢
              omega
            have hprlt : p - (L0 + (old.getD oc default).child_nodes.length
                + (((old.getD oc default).child_nodes.take q).map
                    (fun cid => (desc_order old fuel cid).length)).sum)
                < (desc_order old fuel ((old.getD oc default).child_nodes.getD q 0)).length := by
              omega
            rw [hposp, hBpos _ hprlt]
            rw [show L0 + k = L0 + (old.getD oc default).child_nodes.length
                + (((old.getD oc default).child_nodes.take q).map
                    (fun cid => (desc_order old fuel cid).length)).sum + j from hLk]
            exact hp3

end BlockMain2

section SumHelpers

/-- Mapping pointwise-equal functions gives equal sums. -/
theorem sum_map_eq_on (cs : List Nat) (f f1 : Nat → Nat) (h : ∀ x ∈ cs, f1 x = f x) :
    (cs.map f1).sum = (cs.map f).sum := by
  rw [List.map_congr_left h]

/-- Bumping the value at one handle occurring once raises the sum by one. -/
theorem sum_map_succ_at (nid : Nat) (f f1 : Nat → Nat) :
    ∀ (cs : List Nat), cs.Nodup → nid ∈ cs → (∀ x ∈ cs, x ≠ nid → f1 x = f x) →
      f1 nid = f nid + 1 → (cs.map f1).sum = (cs.map f).sum + 1 := by
  intro cs
  induction cs with
  | nil => intro _ hmem; exact absurd hmem (List.not_mem_nil nid)
  | cons a rest ih =>
    intro hnd hmem hne hup
    rw [List.nodup_cons] at hnd
    rcases List.mem_cons.mp hmem with ha | hr
    · subst ha
      have hrest : ∀ x ∈ rest, f1 x = f x := by
        intro x hx
        exact hne x (List.mem_cons_of_mem _ hx) (fun hxa => hnd.1 (hxa ▸ hx))
      simp only [List.map_cons, List.sum_cons, hup, sum_map_eq_on rest f f1 hrest]
      omega
    · have hane : a ≠ nid := fun h => hnd.1 (h ▸ hr)
      simp only [List.map_cons, List.sum_cons,
        hne a (List.mem_cons_self a rest) hane,
        ih hnd.2 hr (fun x hx => hne x (List.mem_cons_of_mem _ hx)) hup]
      omega

end SumHelpers

section SelectionFacts

variable {P M ME S : Type} [Inhabited S]

/-- The UCB1 descent stays inside the arena and never moves to a smaller
handle. -/
theorem phase_selection_facts (m : Mcts P M S) (oracle : Nat → Nat)
    (hwf : ∀ i < m.tree.length, ∀ j ∈ (m.get_node i).child_nodes, i < j ∧ j < m.tree.length) :
    ∀ (fuel nid : Nat), nid < m.tree.length →
      nid ≤ m.phase_selection oracle fuel nid ∧
      m.phase_selection oracle fuel nid < m.tree.length := by
  intro fuel
  induction fuel with
  | zero =>
    intro nid hn
    exact ⟨Nat.le_refl _, hn⟩
  | succ fuel ih =>
    intro nid hn
    have hred : m.phase_selection oracle (fuel + 1) nid
        = if (m.get_node nid).is_fully_expanded && (m.get_node nid).has_children then
            m.phase_selection oracle fuel
              ((m.get_node nid).child_nodes.getD
                (oracle nid % (m.get_node nid).child_nodes.length) 0)
          else nid := rfl
    rw [hred]
    by_cases hg : ((m.get_node nid).is_fully_expanded && (m.get_node nid).has_children) = true
    · rw [if_pos hg]
      have hcne : (m.get_node nid).child_nodes.length ≠ 0 := by
        have := (Bool.and_eq_true _ _).mp hg
        simpa [Node.has_children] using this.2
      have hmem : (m.get_node nid).child_nodes.getD
          (oracle nid % (m.get_node nid).child_nodes.length) 0
            ∈ (m.get_node nid).child_nodes :=
        getD_mem _ _ _ (Nat.mod_lt _ (by omega))
      have hc := hwf nid hn _ hmem
      have := ih _ hc.2
      exact ⟨Nat.le_trans (Nat.le_of_lt hc.1) this.1, this.2⟩
    · rw [if_neg hg]
      exact ⟨Nat.le_refl _, hn⟩

/-- With positive fuel and the descent guard holding, the descent leaves
the starting node. -/
theorem phase_selection_gt (m : Mcts P M S) (oracle : Nat → Nat)
    (hwf : ∀ i < m.tree.length, ∀ j ∈ (m.get_node i).child_nodes, i < j ∧ j < m.tree.length)
    (fuel nid : Nat) (hn : nid < m.tree.length)
    (hg : ((m.get_node nid).is_fully_expanded && (m.get_node nid).has_children) = true) :
    nid < m.phase_selection oracle (fuel + 1) nid := by
  have hred : m.phase_selection oracle (fuel + 1) nid
      = if (m.get_node nid).is_fully_expanded && (m.get_node nid).has_children then
          m.phase_selection oracle fuel
            ((m.get_node nid).child_nodes.getD
              (oracle nid % (m.get_node nid).child_nodes.length) 0)
        else nid := rfl
  rw [hred, if_pos hg]
  have hcne : (m.get_node nid).child_nodes.length ≠ 0 := by
    have := (Bool.and_eq_true _ _).mp hg
    simpa [Node.has_children] using this.2
  have hmem : (m.get_node nid).child_nodes.getD
      (oracle nid % (m.get_node nid).child_nodes.length) 0
        ∈ (m.get_node nid).child_nodes :=
    getD_mem _ _ _ (Nat.mod_lt _ (by omega))
  have hc := hwf nid hn _ hmem
  exact Nat.lt_of_lt_of_le hc.1 (phase_selection_facts m oracle hwf fuel _ hc.2).1

end SelectionFacts

section BackpropEffect

variable {P M ME S : Type} [DecidableEq P] [Inhabited S]

/-- One-step reduction of `phase_backprop`. -/
theorem phase_backprop_succ (g : GameState P M ME S) (fuel : Nat) (m : Mcts P M S)
    (nid : Nat) (winner : Option P) :
    Mcts.phase_backprop g (fuel + 1) m nid winner =
      match (m.get_node nid).parent_node with
      | some p => Mcts.phase_backprop g fuel
          { m with tree := m.tree.set nid ((m.get_node nid).update g winner) } p winner
      | none => { m with tree := m.tree.set nid ((m.get_node nid).update g winner) } := rfl

/-- Reduction of `phase_backprop` when the node has a parent. -/
theorem phase_backprop_succ_some (g : GameState P M ME S) (fuel : Nat) (m : Mcts P M S)
    (nid : Nat) (winner : Option P) (p : Nat) (hpar : (m.get_node nid).parent_node = some p) :
    Mcts.phase_backprop g (fuel + 1) m nid winner = Mcts.phase_backprop g fuel
      { m with tree := m.tree.set nid ((m.get_node nid).update g winner) } p winner := by
  rw [phase_backprop_succ, hpar]

/-- Reduction of `phase_backprop` at a parentless node. -/
theorem phase_backprop_succ_none (g : GameState P M ME S) (fuel : Nat) (m : Mcts P M S)
    (nid : Nat) (winner : Option P) (hpar : (m.get_node nid).parent_node = none) :
    Mcts.phase_backprop g (fuel + 1) m nid winner
      = { m with tree := m.tree.set nid ((m.get_node nid).update g winner) } := by
  rw [phase_backprop_succ, hpar]

/-- The complete effect of backpropagation from `nid`: handles, links,
states and moves are untouched; every node gains at most one visit and
at most one win (wins only together with a visit); nodes above the start
handle are untouched; the start node gains exactly one visit; and the
total visits of the root's children grow by exactly one unless the walk
starts at the root. -/
theorem phase_backprop_effect (g : GameState P M ME S) :
    ∀ (fuel : Nat) (m : Mcts P M S) (nid : Nat) (winner : Option P),
      (∀ i < m.tree.length, ∀ p, (m.get_node i).parent_node = some p →
        p < i ∧ i ∈ (m.get_node p).child_nodes) →
      (∀ i < m.tree.length, ∀ j ∈ (m.get_node i).child_nodes,
        (m.get_node j).parent_node = some i) →
      (∀ i < m.tree.length, i ≠ 0 → (m.get_node i).parent_node ≠ none) →
      ((m.get_node 0).parent_node = none) →
      ((m.get_node 0).child_nodes.Nodup) →
      nid < m.tree.length → nid < fuel →
      (Mcts.phase_backprop g fuel m nid winner).tree.length = m.tree.length ∧
      (Mcts.phase_backprop g fuel m nid winner).cur_node_id = m.cur_node_id ∧
      (∀ j, ((Mcts.phase_backprop g fuel m nid winner).get_node j).mv = (m.get_node j).mv ∧
        ((Mcts.phase_backprop g fuel m nid winner).get_node j).parent_node
          = (m.get_node j).parent_node ∧
        ((Mcts.phase_backprop g fuel m nid winner).get_node j).child_nodes
          = (m.get_node j).child_nodes ∧
        ((Mcts.phase_backprop g fuel m nid winner).get_node j).untried_mvs
          = (m.get_node j).untried_mvs ∧
        ((Mcts.phase_backprop g fuel m nid winner).get_node j).state = (m.get_node j).state) ∧
      (∀ j, (((Mcts.phase_backprop g fuel m nid winner).get_node j).visits
            = (m.get_node j).visits ∧
          ((Mcts.phase_backprop g fuel m nid winner).get_node j).wins = (m.get_node j).wins) ∨
        (((Mcts.phase_backprop g fuel m nid winner).get_node j).visits
            = (m.get_node j).visits + 1 ∧
          (m.get_node j).wins ≤ ((Mcts.phase_backprop g fuel m nid winner).get_node j).wins ∧
          ((Mcts.phase_backprop g fuel m nid winner).get_node j).wins
            ≤ (m.get_node j).wins + 1)) ∧
      (∀ j, nid < j →
        ((Mcts.phase_backprop g fuel m nid winner).get_node j).visits = (m.get_node j).visits ∧
        ((Mcts.phase_backprop g fuel m nid winner).get_node j).wins = (m.get_node j).wins) ∧
      ((Mcts.phase_backprop g fuel m nid winner).get_node nid).visits
        = (m.get_node nid).visits + 1 ∧
      ((((Mcts.phase_backprop g fuel m nid winner).get_node 0).child_nodes.map
          (fun c => ((Mcts.phase_backprop g fuel m nid winner).get_node c).visits)).sum
        = (((m.get_node 0).child_nodes.map (fun c => (m.get_node c).visits)).sum
            + (if nid = 0 then 0 else 1))) := by
  intro fuel
  induction fuel with
  | zero =>
    intro m nid winner _ _ _ _ _ _ hf
    omega
  | succ fuel ih =>
    intro m nid winner hpm hcp hps hrp hnd hn hf
    have hone : ∀ j, ({ m with tree := m.tree.set nid ((m.get_node nid).update g winner) }
          : Mcts P M S).get_node j
        = if j = nid then (m.get_node nid).update g winner else m.get_node j := by
      intro j
      by_cases hj : j = nid
      · subst hj
        simp only [if_pos rfl, Mcts.get_node]
        exact getD_set_eq _ _ _ _ hn
      · simp only [if_neg hj, Mcts.get_node]
        exact getD_set_ne _ _ _ _ _ (fun h => hj h.symm)
    cases hpar : (m.get_node nid).parent_node with
    | none =>
      rw [phase_backprop_succ_none g fuel m nid winner hpar]
      have hnid0 : nid = 0 := by
        by_contra hne
        exact hps nid hn hne hpar
      subst hnid0
      refine ⟨by simp, rfl, ?_, ?_, ?_, ?_, ?_⟩
      · intro j
        rw [hone j]
        by_cases hj : j = 0
        · subst hj
          rw [if_pos rfl]
          exact ⟨update_mv _ _ _, update_parent_node _ _ _, update_child_nodes _ _ _,
            update_untried_mvs _ _ _, update_state _ _ _⟩
        · rw [if_neg hj]
          exact ⟨rfl, rfl, rfl, rfl, rfl⟩
      · intro j
        rw [hone j]
        by_cases hj : j = 0
        · subst hj
          rw [if_pos rfl]
          right
          refine ⟨update_visits _ _ _, ?_, ?_⟩
          · exact (update_wins_bounds g (m.get_node 0) winner).1
          · exact (update_wins_bounds g (m.get_node 0) winner).2
        · rw [if_neg hj]
          exact Or.inl ⟨rfl, rfl⟩
      · intro j hj
        rw [hone j, if_neg (by omega)]
        exact ⟨rfl, rfl⟩
      · rw [hone 0, if_pos rfl]
        exact update_visits _ _ _
      · have hch : (({ m with tree := m.tree.set 0 ((m.get_node 0).update g winner) }
            : Mcts P M S).get_node 0).child_nodes = (m.get_node 0).child_nodes := by
          rw [hone 0, if_pos rfl]
          exact update_child_nodes _ _ _
        rw [hch, if_pos rfl]
        have hvne : ∀ c, c ≠ 0 →
            (({ m with tree := m.tree.set 0 ((m.get_node 0).update g winner) }
              : Mcts P M S).get_node c).visits = (m.get_node c).visits := by
          intro c hc
          rw [hone c, if_neg hc]
        refine sum_map_eq_on _ _ _ ?_
        intro c hc
        have hc0 : c ≠ 0 := by
          intro h
          subst h
          have := hcp 0 (by omega) 0 hc
          rw [hrp] at this
          exact Option.noConfusion this
        exact hvne c hc0
    | some p =>
      rw [phase_backprop_succ_some g fuel m nid winner p hpar]
      have hmem := hpm nid hn p hpar
      have hp : p < m.tree.length := by omega
      have hm1 := hone
      have hih := ih { m with tree := m.tree.set nid ((m.get_node nid).update g winner) }
        p winner ?hA1 ?hA2 ?hA3 ?hA4 ?hA5 (by simpa using hp) (by omega)
      obtain ⟨ihA, ihB, ihC, ihD, ihE, ihF, ihG⟩ := hih
      have hnid0 : nid ≠ 0 := by
        intro h
        rw [h, hrp] at hpar
        exact Option.noConfusion hpar
      refine ⟨by simpa using ihA, ihB, ?_, ?_, ?_, ?_, ?_⟩
      · intro j
        obtain ⟨c1, c2, c3, c4, c5⟩ := ihC j
        rw [c1, c2, c3, c4, c5, hm1 j]
        by_cases hje : j = nid
        · rw [if_pos hje, hje]
          exact ⟨update_mv _ _ _, update_parent_node _ _ _, update_child_nodes _ _ _,
            update_untried_mvs _ _ _, update_state _ _ _⟩
        · rw [if_neg hje]
          exact ⟨rfl, rfl, rfl, rfl, rfl⟩
      · intro j
        by_cases hje : j = nid
        · have hE := ihE j (by omega)
          rw [hE.1, hE.2, hm1 j, if_pos hje, hje]
          have hwb := update_wins_bounds g (m.get_node nid) winner
          exact Or.inr ⟨update_visits _ _ _, hwb.1, hwb.2⟩
        · rcases ihD j with ⟨d1, d2⟩ | ⟨d1, d2, d3⟩
          · rw [d1, d2, hm1 j, if_neg hje]
            exact Or.inl ⟨rfl, rfl⟩
          · rw [hm1 j, if_neg hje] at d1 d2 d3
            exact Or.inr ⟨d1, d2, d3⟩
      · intro j hj
        have hE := ihE j (by omega)
        rw [hE.1, hE.2, hm1 j, if_neg (by omega)]
        exact ⟨rfl, rfl⟩
      · have hE := ihE nid (by omega)
        rw [hE.1, hm1 nid, if_pos rfl]
        exact update_visits _ _ _
      · rw [ihG]
        have hch : (({ m with tree := m.tree.set nid ((m.get_node nid).update g winner) }
            : Mcts P M S).get_node 0).child_nodes = (m.get_node 0).child_nodes := by
          rw [hm1 0, if_neg (fun h => hnid0 h.symm)]
        rw [hch]
        have hvne : ∀ x, x ≠ nid →
            (({ m with tree := m.tree.set nid ((m.get_node nid).update g winner) }
              : Mcts P M S).get_node x).visits = (m.get_node x).visits := by
          intro x hx
          rw [hm1 x, if_neg hx]
        have hveq : (({ m with tree := m.tree.set nid ((m.get_node nid).update g winner) }
              : Mcts P M S).get_node nid).visits = (m.get_node nid).visits + 1 := by
          rw [hm1 nid, if_pos rfl]
          exact update_visits _ _ _
        by_cases hp0 : p = 0
        · have hmm : nid ∈ (m.get_node 0).child_nodes := hp0 ▸ hmem.2
          have hsum := sum_map_succ_at nid (fun c => (m.get_node c).visits)
            (fun c => (({ m with tree := m.tree.set nid ((m.get_node nid).update g winner) }
              : Mcts P M S).get_node c).visits) (m.get_node 0).child_nodes hnd hmm
            (fun x hx hxne => hvne x hxne) hveq
          rw [hsum, if_pos hp0, if_neg hnid0]
        · have hnm : nid ∉ (m.get_node 0).child_nodes := by
            intro hmm
            have h00 := hcp 0 (by omega) nid hmm
            rw [hpar] at h00
            exact hp0 (Option.some.inj h00)
          have hsum := sum_map_eq_on (m.get_node 0).child_nodes (fun c => (m.get_node c).visits)
            (fun c => (({ m with tree := m.tree.set nid ((m.get_node nid).update g winner) }
              : Mcts P M S).get_node c).visits)
            (fun x hx => hvne x (fun h => hnm (h ▸ hx)))
          rw [hsum, if_neg hp0, if_neg hnid0]
      case hA1 =>
        intro i hi q hq
        rw [hm1 i] at hq
        have hi2 : i < m.tree.length := by simpa using hi
        have hpq : (m.get_node i).parent_node = some q := by
          by_cases hie : i = nid
          · rw [if_pos hie, update_parent_node] at hq
            rw [hie]
            exact hq
          · rw [if_neg hie] at hq
            exact hq
        have hq2 := hpm i hi2 q hpq
        refine ⟨hq2.1, ?_⟩
        rw [hm1 q]
        by_cases hqe : q = nid
        · rw [if_pos hqe, update_child_nodes]
          rw [hqe] at hq2
          exact hq2.2
        · rw [if_neg hqe]
          exact hq2.2
      case hA2 =>
        intro i hi j hj
        have hi2 : i < m.tree.length := by simpa using hi
        rw [hm1 i] at hj
        have hj2 : j ∈ (m.get_node i).child_nodes := by
          by_cases hie : i = nid
          · rw [if_pos hie, update_child_nodes] at hj
            rw [hie]
            exact hj
          · rw [if_neg hie] at hj
            exact hj
        have hq2 := hcp i hi2 j hj2
        rw [hm1 j]
        by_cases hje : j = nid
        · rw [if_pos hje, update_parent_node]
          rw [hje] at hq2
          exact hq2
        · rw [if_neg hje]
          exact hq2
      case hA3 =>
        intro i hi hne
        have hi2 : i < m.tree.length := by simpa using hi
        rw [hm1 i]
        by_cases hie : i = nid
        · rw [if_pos hie, update_parent_node, ← hie]
          exact hps i hi2 hne
        · rw [if_neg hie]
          exact hps i hi2 hne
      case hA4 =>
        rw [hm1 0]
        by_cases h0 : (0 : Nat) = nid
        · rw [if_pos h0, update_parent_node, ← h0]
          exact hrp
        · rw [if_neg h0]
          exact hrp
      case hA5 =>
        rw [hm1 0]
        by_cases h0 : (0 : Nat) = nid
        · rw [if_pos h0, update_child_nodes, ← h0]
          exact hnd
        · rw [if_neg h0]
          exact hnd

end BackpropEffect

section DescOrderIsDesc

variable {M S : Type} [Inhabited S]

/-- Every handle listed by `desc_order` is a descendant. -/
theorem desc_order_sound (old : List (Node M S)) :
    ∀ (fuel oc j : Nat), j ∈ desc_order old fuel oc → IsDesc old oc j := by
  intro fuel
  induction fuel with
  | zero =>
    intro oc j hj
    simp [desc_order] at hj
  | succ fuel ih =>
    intro oc j hj
    rw [desc_order_succ] at hj
    rcases List.mem_append.mp hj with hc | hf
    · exact IsDesc.step hc (IsDesc.refl j)
    · obtain ⟨l, hl, hjl⟩ := List.mem_flatten.mp hf
      obtain ⟨u, hu, hleq⟩ := List.mem_map.mp hl
      subst hleq
      have hmem : (old.getD oc default).child_nodes.getD u 0 ∈ (old.getD oc default).child_nodes :=
        getD_mem _ _ _ (by simpa using hu)
      exact IsDesc.step hmem (ih _ j hjl)

/-- In a well-founded arena, descendants stay inside the arena. -/
theorem IsDesc_lt (old : List (Node M S))
    (hwf : ∀ i < old.length, ∀ j ∈ (old.getD i default).child_nodes, i < j ∧ j < old.length) :
    ∀ (a j : Nat), a < old.length → IsDesc old a j → j < old.length := by
  intro a j ha hd
  induction hd with
  | refl => exact ha
  | step hb _ ih => exact ih ((hwf _ ha _ hb).2)

/-- In a well-founded arena, descendant handles are at least the ancestor. -/
theorem IsDesc_le (old : List (Node M S))
    (hwf : ∀ i < old.length, ∀ j ∈ (old.getD i default).child_nodes, i < j ∧ j < old.length) :
    ∀ (a j : Nat), a < old.length → IsDesc old a j → a ≤ j := by
  intro a j ha hd
  induction hd with
  | refl => exact Nat.le_refl _
  | step hb _ ih =>
    rename_i x b c
    have hx := hwf _ ha _ hb
    exact Nat.le_trans (Nat.le_of_lt hx.1) (ih hx.2)

/-- With enough fuel, `desc_order` lists every strict descendant. -/
theorem desc_order_complete (old : List (Node M S))
    (hwf : ∀ i < old.length, ∀ j ∈ (old.getD i default).child_nodes, i < j ∧ j < old.length) :
    ∀ (fuel oc j : Nat), oc < old.length → old.length - oc ≤ fuel →
      IsDesc old oc j → j = oc ∨ j ∈ desc_order old fuel oc := by
  intro fuel
  induction fuel with
  | zero =>
    intro oc j hoc hfuel
    omega
  | succ fuel ih =>
    intro oc j hoc hfuel hd
    cases hd with
    | refl => exact Or.inl rfl
    | step hb hbc =>
      rename_i b
      have hx := hwf _ hoc _ hb
      rcases ih b j hx.2 (by omega) hbc with hjb | hjm
      · subst hjb
        right
        rw [desc_order_succ]
        exact List.mem_append.mpr (Or.inl hb)
      · right
        rw [desc_order_succ]
        obtain ⟨u, hu, hbu⟩ := List.getElem_of_mem hb
        have hgd : (old.getD oc default).child_nodes.getD u 0 = b := by
          rw [List.getD_eq_getElem _ _ hu, hbu]
        refine List.mem_append.mpr (Or.inr (List.mem_flatten.mpr
          ⟨desc_order old fuel b, ?_, hjm⟩))
        refine List.mem_map.mpr ⟨u, by simpa using hu, ?_⟩
        rw [hgd]

end DescOrderIsDesc

section PruneEq

variable {P M ME S : Type} [Inhabited S]

/-- `prune_nodes`, closed form: the rebuilt arena is the root copy
(children renumbered to the contiguous range starting at 1) followed by
the positional descendant block. -/
theorem prune_eq (m : Mcts P M S)
    (hwf : ∀ i < m.tree.length, ∀ j ∈ (m.get_node i).child_nodes, i < j ∧ j < m.tree.length)
    (hcur : m.cur_node_id < m.tree.length) :
    m.prune_nodes = { m with
      tree := ({ m.get_cur_node with
                 parent_node := none
                 child_nodes := List.range' 1 (m.get_cur_node).child_nodes.length })
        :: block_for m.tree m.tree.length m.cur_node_id 0 1,
      cur_node_id := 0 } := by
  have hab := append_eq_block m.tree (by simpa [Mcts.get_node] using hwf) m.tree.length
    m.cur_node_id 0 [{ m.get_cur_node with parent_node := none }] hcur (by omega) (by simp) rfl
  show ({ m with
      tree := append_children_to m.tree m.tree.length 0 [{ m.get_cur_node with parent_node := none }],
      cur_node_id := 0 } : Mcts P M S) = _
  rw [hab]
  rfl

end PruneEq

section PruneBInv

variable {P M ME S : Type} [Inhabited S]

/-- Componentwise reading of a payload equality. -/
theorem payload_fields {M S : Type} (n1 n2 : Node M S) (h : n1.payload = n2.payload) :
    n1.mv = n2.mv ∧ n1.wins = n2.wins ∧ n1.visits = n2.visits ∧
    n1.untried_mvs = n2.untried_mvs ∧ n1.state = n2.state := by
  simpa [Node.payload, Prod.ext_iff] using h

/-- Rerooting a state satisfying the reachable-state invariant yields a
state satisfying the burst invariant. -/
theorem prune_BInv (g : GameState P M ME S) (m : Mcts P M S) (hR : RInv g m) :
    BInv g m.prune_nodes := by
  have hcur := hR.cur_lt
  have hwf : ∀ i < m.tree.length, ∀ j ∈ (m.get_node i).child_nodes, i < j ∧ j < m.tree.length :=
    fun i hi j hj => ⟨hR.child_gt i hi j hj, hR.child_lt i hi j hj⟩
  have hwf' : ∀ i < m.tree.length, ∀ j ∈ (m.tree.getD i default).child_nodes,
      i < j ∧ j < m.tree.length := hwf
  have hmain := block_for_main m.tree hwf' m.tree.length m.cur_node_id 0 1 hcur
    (by omega) (by omega)
  have hBlen : (block_for m.tree m.tree.length m.cur_node_id 0 1).length = (desc_order m.tree m.tree.length m.cur_node_id).length := block_for_length m.tree m.tree.length m.cur_node_id 0 1
  have hcs_le : (m.get_cur_node).child_nodes.length ≤ (desc_order m.tree m.tree.length m.cur_node_id).length :=
    children_le_desc m.tree m.tree.length m.cur_node_id hcur (by omega)
  have hccs1 : (m.get_cur_node).child_nodes.length
      = (m.tree.getD m.cur_node_id default).child_nodes.length := rfl
  have hccs2 : (m.get_node m.cur_node_id).child_nodes.length
      = (m.tree.getD m.cur_node_id default).child_nodes.length := rfl
  have hT : (m.prune_nodes).tree = ({ m.get_cur_node with parent_node := none, child_nodes := List.range' 1 (m.get_cur_node).child_nodes.length }) :: (block_for m.tree m.tree.length m.cur_node_id 0 1) := by rw [prune_eq m hwf hcur]
  have hC : (m.prune_nodes).cur_node_id = 0 := by rw [prune_eq m hwf hcur]
  have hlenT : (m.prune_nodes).tree.length = 1 + (desc_order m.tree m.tree.length m.cur_node_id).length := by
    rw [hT]
    simp [hBlen]
    omega
  have hget0 : (m.prune_nodes).get_node 0 = ({ m.get_cur_node with parent_node := none, child_nodes := List.range' 1 (m.get_cur_node).child_nodes.length }) := by
    simp [Mcts.get_node, hT]
  have hgetS : ∀ k, (m.prune_nodes).get_node (k + 1) = (block_for m.tree m.tree.length m.cur_node_id 0 1).getD k default := by
    intro k
    simp [Mcts.get_node, hT]
  -- structural clauses
  have hcg : ∀ i < (m.prune_nodes).tree.length,
      ∀ j ∈ ((m.prune_nodes).get_node i).child_nodes, i < j := by
    intro i hi j hj
    cases i with
    | zero =>
      rw [hget0] at hj
      have hj' : j ∈ List.range' 1 (m.get_cur_node).child_nodes.length := hj
      rw [List.mem_range'_1] at hj'
      omega
    | succ k =>
      rw [hlenT] at hi
      obtain ⟨s, hsch, hslt, hsub, hali⟩ := (hmain k (by omega)).2.2.1
      rw [hgetS, hsch] at hj
      rw [List.mem_range'_1] at hj
      omega
  have hcl : ∀ i < (m.prune_nodes).tree.length,
      ∀ j ∈ ((m.prune_nodes).get_node i).child_nodes, j < (m.prune_nodes).tree.length := by
    intro i hi j hj
    rw [hlenT]
    cases i with
    | zero =>
      rw [hget0] at hj
      have hj' : j ∈ List.range' 1 (m.get_cur_node).child_nodes.length := hj
      rw [List.mem_range'_1] at hj'
      omega
    | succ k =>
      rw [hlenT] at hi
      obtain ⟨s, hsch, hslt, hsub, hali⟩ := (hmain k (by omega)).2.2.1
      rw [hgetS, hsch] at hj
      rw [List.mem_range'_1] at hj
      omega
  have hcp : ∀ i < (m.prune_nodes).tree.length,
      ∀ j ∈ ((m.prune_nodes).get_node i).child_nodes,
        ((m.prune_nodes).get_node j).parent_node = some i := by
    intro i hi j hj
    cases i with
    | zero =>
      rw [hget0] at hj
      have hj' : j ∈ List.range' 1 (m.get_cur_node).child_nodes.length := hj
      rw [List.mem_range'_1] at hj'
      obtain ⟨p, hp, hhdr, -⟩ := (hmain (j - 1) (by omega)).2.2.2
      obtain ⟨hp0, -⟩ := hhdr (by omega)
      rw [show j = (j - 1) + 1 from by omega, hgetS]
      rw [hp, hp0]
    | succ k =>
      rw [hlenT] at hi
      obtain ⟨s, hsch, hslt, hsub, hali⟩ := (hmain k (by omega)).2.2.1
      rw [hgetS, hsch] at hj
      rw [List.mem_range'_1] at hj
      have hjs : j = s + (j - s) := by omega
      have hts : j - s < (m.tree.getD ((desc_order m.tree m.tree.length m.cur_node_id).getD k 0) default).child_nodes.length := by omega
      have hpar := (hali (j - s) hts).2
      rw [show j = (s - 1 + (j - s)) + 1 from by omega, hgetS]
      rw [hpar, Nat.add_comm 1 k]
  have hnd : ∀ i < (m.prune_nodes).tree.length,
      ((m.prune_nodes).get_node i).child_nodes.Nodup := by
    intro i hi
    cases i with
    | zero =>
      rw [hget0]
      show (List.range' 1 (m.get_cur_node).child_nodes.length).Nodup
      exact List.nodup_range' _ _
    | succ k =>
      rw [hlenT] at hi
      obtain ⟨s, hsch, hslt, hsub, hali⟩ := (hmain k (by omega)).2.2.1
      rw [hgetS, hsch]
      exact List.nodup_range' _ _
  have hpm : ∀ i < (m.prune_nodes).tree.length, ∀ p,
      ((m.prune_nodes).get_node i).parent_node = some p →
        p < i ∧ i ∈ ((m.prune_nodes).get_node p).child_nodes := by
    intro i hi p hp
    cases i with
    | zero =>
      rw [hget0] at hp
      exact Option.noConfusion hp
    | succ k =>
      rw [hlenT] at hi
      rw [hgetS] at hp
      obtain ⟨p0, hp0, hhdr, hdeep⟩ := (hmain k (by omega)).2.2.2
      have hpp : p = p0 := by
        rw [hp0] at hp
        exact (Option.some.inj hp).symm
      subst hpp
      rcases Nat.lt_or_ge k (m.get_cur_node).child_nodes.length with hklt | hkge
      · obtain ⟨hp1, -⟩ := hhdr hklt
        subst hp1
        refine ⟨by omega, ?_⟩
        rw [hget0]
        show k + 1 ∈ List.range' 1 (m.get_cur_node).child_nodes.length
        rw [List.mem_range'_1]
        omega
      · obtain ⟨hp1, hp2, hp3⟩ := hdeep hkge
        refine ⟨by omega, ?_⟩
        rw [show p = (p - 1) + 1 from by omega, hgetS]
        rw [show k + 1 = 1 + k from by omega]
        exact hp3
  have hws : ∀ i < (m.prune_nodes).tree.length,
      ((m.prune_nodes).get_node i).wins ≤ ((m.prune_nodes).get_node i).visits := by
    intro i hi
    cases i with
    | zero =>
      rw [hget0]
      exact hR.wins_le m.cur_node_id hcur
    | succ k =>
      rw [hlenT] at hi
      obtain ⟨-, hwe, hve, -, -⟩ := payload_fields _ _ (hmain k (by omega)).2.1
      rw [hgetS, hwe, hve]
      exact hR.wins_le _ (hmain k (by omega)).1.2
  have hus : ∀ i < (m.prune_nodes).tree.length,
      ∀ x ∈ ((m.prune_nodes).get_node i).untried_mvs,
        x ∈ g.get_moves ((m.prune_nodes).get_node i).state := by
    intro i hi x hx
    cases i with
    | zero =>
      rw [hget0] at hx ⊢
      exact hR.untried_sub m.cur_node_id hcur x hx
    | succ k =>
      rw [hlenT] at hi
      obtain ⟨-, -, -, hue, hse⟩ := payload_fields _ _ (hmain k (by omega)).2.1
      rw [hgetS, hue] at hx
      rw [hgetS, hse]
      exact hR.untried_sub _ (hmain k (by omega)).1.2 x hx
  have hmv : ∀ i < (m.prune_nodes).tree.length,
      ∀ c ∈ ((m.prune_nodes).get_node i).child_nodes,
        ∃ mc, ((m.prune_nodes).get_node c).mv = some mc ∧
          mc ∈ g.get_moves ((m.prune_nodes).get_node i).state := by
    intro i hi c hc
    cases i with
    | zero =>
      rw [hget0] at hc ⊢
      have hc' : c ∈ List.range' 1 (m.get_cur_node).child_nodes.length := hc
      rw [List.mem_range'_1] at hc'
      obtain ⟨mc, hmce, hmcm⟩ := hR.desc_mv m.cur_node_id (IsDesc.refl _)
        ((m.get_cur_node).child_nodes.getD (c - 1) 0) (getD_mem _ _ _ (by omega))
      refine ⟨mc, ?_, ?_⟩
      · obtain ⟨hmve, -, -, -, -⟩ := payload_fields _ _ (hmain (c - 1) (by omega)).2.1
        obtain ⟨-, hdce⟩ := ((hmain (c - 1) (by omega)).2.2.2.choose_spec).2.1 (by omega)
        rw [show c = (c - 1) + 1 from by omega, hgetS, hmve, hdce]
        exact hmce
      · exact hmcm
    | succ k =>
      rw [hlenT] at hi
      have hk : k < (desc_order m.tree m.tree.length m.cur_node_id).length := by omega
      obtain ⟨s, hsch, hslt, hsub, hali⟩ := (hmain k hk).2.2.1
      rw [hgetS, hsch] at hc
      rw [List.mem_range'_1] at hc
      have hts : c - s < (m.tree.getD ((desc_order m.tree m.tree.length m.cur_node_id).getD k 0) default).child_nodes.length := by omega
      have hdk := (hmain k hk).1
      obtain ⟨-, -, -, -, hse⟩ := payload_fields _ _ (hmain k hk).2.1
      obtain ⟨mc, hmce, hmcm⟩ := hR.desc_mv ((desc_order m.tree m.tree.length m.cur_node_id).getD k 0)
        (desc_order_sound m.tree m.tree.length m.cur_node_id _ (getD_mem _ _ _ hk))
        ((m.tree.getD ((desc_order m.tree m.tree.length m.cur_node_id).getD k 0) default).child_nodes.getD (c - s) 0)
        (getD_mem _ _ _ hts)
      refine ⟨mc, ?_, ?_⟩
      · have hidx : s - 1 + (c - s) < (desc_order m.tree m.tree.length m.cur_node_id).length := by omega
        obtain ⟨hmve, -, -, -, -⟩ := payload_fields _ _ (hmain (s - 1 + (c - s)) hidx).2.1
        have hdce := (hali (c - s) hts).1
        rw [show c = (s - 1 + (c - s)) + 1 from by omega, hgetS, hmve, hdce]
        exact hmce
      · rw [hgetS, hse]
        exact hmcm
  have hvs : ∀ i < (m.prune_nodes).tree.length,
      ∀ c ∈ ((m.prune_nodes).get_node i).child_nodes,
        1 ≤ ((m.prune_nodes).get_node c).visits := by
    intro i hi c hc
    cases i with
    | zero =>
      rw [hget0] at hc
      have hc' : c ∈ List.range' 1 (m.get_cur_node).child_nodes.length := hc
      rw [List.mem_range'_1] at hc'
      have hvge := hR.desc_visits m.cur_node_id (IsDesc.refl _)
        ((m.get_cur_node).child_nodes.getD (c - 1) 0) (getD_mem _ _ _ (by omega))
      obtain ⟨-, -, hve, -, -⟩ := payload_fields _ _ (hmain (c - 1) (by omega)).2.1
      obtain ⟨-, hdce⟩ := ((hmain (c - 1) (by omega)).2.2.2.choose_spec).2.1 (by omega)
      rw [show c = (c - 1) + 1 from by omega, hgetS, hve, hdce]
      exact hvge
    | succ k =>
      rw [hlenT] at hi
      have hk : k < (desc_order m.tree m.tree.length m.cur_node_id).length := by omega
      obtain ⟨s, hsch, hslt, hsub, hali⟩ := (hmain k hk).2.2.1
      rw [hgetS, hsch] at hc
      rw [List.mem_range'_1] at hc
      have hts : c - s < (m.tree.getD ((desc_order m.tree m.tree.length m.cur_node_id).getD k 0) default).child_nodes.length := by omega
      have hvge := hR.desc_visits ((desc_order m.tree m.tree.length m.cur_node_id).getD k 0)
        (desc_order_sound m.tree m.tree.length m.cur_node_id _ (getD_mem _ _ _ hk))
        ((m.tree.getD ((desc_order m.tree m.tree.length m.cur_node_id).getD k 0) default).child_nodes.getD (c - s) 0)
        (getD_mem _ _ _ hts)
      have hidx : s - 1 + (c - s) < (desc_order m.tree m.tree.length m.cur_node_id).length := by omega
      obtain ⟨-, -, hve, -, -⟩ := payload_fields _ _ (hmain (s - 1 + (c - s)) hidx).2.1
      have hdce := (hali (c - s) hts).1
      rw [show c = (s - 1 + (c - s)) + 1 from by omega, hgetS, hve, hdce]
      exact hvge
  have hwfT : ∀ i < (m.prune_nodes).tree.length,
      ∀ j ∈ ((m.prune_nodes).tree.getD i default).child_nodes,
        i < j ∧ j < (m.prune_nodes).tree.length :=
    fun i hi j hj => ⟨hcg i hi j hj, hcl i hi j hj⟩
  refine { cur_lt := ?_, child_gt := hcg, child_lt := hcl, child_parent := hcp,
           child_nodup := hnd, parent_mem := hpm, wins_le := hws, untried_sub := hus,
           desc_mv := ?_, desc_visits := ?_, cur_eq := hC, root_parent := ?_,
           parent_some := ?_, all_mv := hmv, all_visits := hvs }
  · rw [hlenT]
    omega
  · intro j hdesc c hc
    rw [hC] at hdesc
    exact hmv j (IsDesc_lt _ hwfT 0 j (by rw [hlenT]; omega) hdesc) c hc
  · intro j hdesc c hc
    rw [hC] at hdesc
    exact hvs j (IsDesc_lt _ hwfT 0 j (by rw [hlenT]; omega) hdesc) c hc
  · rw [hget0]
  · intro i hi hne
    rw [show i = (i - 1) + 1 from by omega, hgetS]
    rw [hlenT] at hi
    obtain ⟨p0, hp0, -, -⟩ := (hmain (i - 1) (by omega)).2.2.2
    rw [hp0]
    exact Option.noConfusion

end PruneBInv

section RoundPreservation

variable {P M ME S : Type} [DecidableEq P] [DecidableEq M] [Inhabited S]

/-- Build a `BInv` from the global clauses alone: the two subtree-guarded
clauses of `RInv` follow from their global counterparts. -/
theorem mk_BInv (g : GameState P M ME S) (m : Mcts P M S)
    (cur_lt : m.cur_node_id < m.tree.length)
    (child_gt : ∀ i < m.tree.length, ∀ j ∈ (m.get_node i).child_nodes, i < j)
    (child_lt : ∀ i < m.tree.length, ∀ j ∈ (m.get_node i).child_nodes, j < m.tree.length)
    (child_parent : ∀ i < m.tree.length, ∀ j ∈ (m.get_node i).child_nodes,
      (m.get_node j).parent_node = some i)
    (child_nodup : ∀ i < m.tree.length, (m.get_node i).child_nodes.Nodup)
    (parent_mem : ∀ i < m.tree.length, ∀ p, (m.get_node i).parent_node = some p →
      p < i ∧ i ∈ (m.get_node p).child_nodes)
    (wins_le : ∀ i < m.tree.length, (m.get_node i).wins ≤ (m.get_node i).visits)
    (untried_sub : ∀ i < m.tree.length, ∀ x ∈ (m.get_node i).untried_mvs,
      x ∈ g.get_moves (m.get_node i).state)
    (cur_eq : m.cur_node_id = 0)
    (root_parent : (m.get_node 0).parent_node = none)
    (parent_some : ∀ i < m.tree.length, i ≠ 0 → (m.get_node i).parent_node ≠ none)
    (all_mv : ∀ i < m.tree.length, ∀ c ∈ (m.get_node i).child_nodes,
      ∃ mc, (m.get_node c).mv = some mc ∧ mc ∈ g.get_moves (m.get_node i).state)
    (all_visits : ∀ i < m.tree.length, ∀ c ∈ (m.get_node i).child_nodes,
      1 ≤ (m.get_node c).visits) :
    BInv g m := by
  have hwfT : ∀ i < m.tree.length, ∀ j ∈ (m.tree.getD i default).child_nodes,
      i < j ∧ j < m.tree.length :=
    fun i hi j hj => ⟨child_gt i hi j hj, child_lt i hi j hj⟩
  exact { cur_lt, child_gt, child_lt, child_parent, child_nodup, parent_mem, wins_le,
          untried_sub, cur_eq, root_parent, parent_some, all_mv, all_visits,
          desc_mv := fun j hd c hc =>
            all_mv j (IsDesc_lt m.tree hwfT m.cur_node_id j cur_lt hd) c hc,
          desc_visits := fun j hd c hc =>
            all_visits j (IsDesc_lt m.tree hwfT m.cur_node_id j cur_lt hd) c hc }

/-- The descent stops immediately when its guard fails. -/
theorem phase_selection_stop (m : Mcts P M S) (oracle : Nat → Nat) (fuel nid : Nat)
    (hg : ((m.get_node nid).is_fully_expanded && (m.get_node nid).has_children) = false) :
    m.phase_selection oracle fuel nid = nid := by
  cases fuel with
  | zero => rfl
  | succ fuel =>
    have hred : m.phase_selection oracle (fuel + 1) nid
        = if (m.get_node nid).is_fully_expanded && (m.get_node nid).has_children then
            m.phase_selection oracle fuel
              ((m.get_node nid).child_nodes.getD
                (oracle nid % (m.get_node nid).child_nodes.length) 0)
          else nid := rfl
    rw [hred, if_neg (by simp [hg])]

/-- `phase_expansion` at a node without untried moves. -/
theorem phase_expansion_nil (g : GameState P M ME S) (m : Mcts P M S) (nid choice : Nat)
    (hu : (m.get_node nid).untried_mvs = []) :
    m.phase_expansion g nid choice = some (m, nid) := by
  unfold Mcts.phase_expansion
  rw [hu]

/-- `phase_expansion` at a node with untried moves runs `make_move` on
the drawn one. -/
theorem phase_expansion_cons (g : GameState P M ME S) (m : Mcts P M S) (nid choice : Nat)
    (x : M) (xs : List M) (hu : (m.get_node nid).untried_mvs = x :: xs) :
    m.phase_expansion g nid choice
      = m.make_move g nid ((x :: xs).getD (choice % (x :: xs).length) x) := by
  unfold Mcts.phase_expansion
  rw [hu]

/-- `make_move` preserves every structural invariant clause, appends the
new child as the last child of `nid`, and leaves all statistics of
existing nodes unchanged (the new node starts at zero). -/
theorem make_move_structure (g : GameState P M ME S) (m m1 : Mcts P M S)
    (nid : Nat) (mv : M) (cid : Nat)
    (hcg : ∀ i < m.tree.length, ∀ j ∈ (m.get_node i).child_nodes, i < j)
    (hcl : ∀ i < m.tree.length, ∀ j ∈ (m.get_node i).child_nodes, j < m.tree.length)
    (hcp : ∀ i < m.tree.length, ∀ j ∈ (m.get_node i).child_nodes,
      (m.get_node j).parent_node = some i)
    (hnd : ∀ i < m.tree.length, (m.get_node i).child_nodes.Nodup)
    (hpm : ∀ i < m.tree.length, ∀ p, (m.get_node i).parent_node = some p →
      p < i ∧ i ∈ (m.get_node p).child_nodes)
    (hws : ∀ i < m.tree.length, (m.get_node i).wins ≤ (m.get_node i).visits)
    (hus : ∀ i < m.tree.length, ∀ x ∈ (m.get_node i).untried_mvs,
      x ∈ g.get_moves (m.get_node i).state)
    (hn : nid < m.tree.length)
    (h : m.make_move g nid mv = some (m1, cid)) :
    m1.tree.length = m.tree.length + 1 ∧ cid = m.tree.length ∧
    m1.cur_node_id = m.cur_node_id ∧
    (∀ i < m1.tree.length, ∀ j ∈ (m1.get_node i).child_nodes, i < j) ∧
    (∀ i < m1.tree.length, ∀ j ∈ (m1.get_node i).child_nodes, j < m1.tree.length) ∧
    (∀ i < m1.tree.length, ∀ j ∈ (m1.get_node i).child_nodes,
      (m1.get_node j).parent_node = some i) ∧
    (∀ i < m1.tree.length, (m1.get_node i).child_nodes.Nodup) ∧
    (∀ i < m1.tree.length, ∀ p, (m1.get_node i).parent_node = some p →
      p < i ∧ i ∈ (m1.get_node p).child_nodes) ∧
    (∀ i < m1.tree.length, (m1.get_node i).wins ≤ (m1.get_node i).visits) ∧
    (∀ i < m1.tree.length, ∀ x ∈ (m1.get_node i).untried_mvs,
      x ∈ g.get_moves (m1.get_node i).state) ∧
    ((∀ i < m.tree.length, i ≠ 0 → (m.get_node i).parent_node ≠ none) →
      ∀ i < m1.tree.length, i ≠ 0 → (m1.get_node i).parent_node ≠ none) ∧
    ((m.get_node 0).parent_node = none → (m1.get_node 0).parent_node = none) ∧
    ((∀ i < m.tree.length, ∀ c ∈ (m.get_node i).child_nodes,
        ∃ mc, (m.get_node c).mv = some mc ∧ mc ∈ g.get_moves (m.get_node i).state) →
      mv ∈ g.get_moves (m.get_node nid).state →
      ∀ i < m1.tree.length, ∀ c ∈ (m1.get_node i).child_nodes,
        ∃ mc, (m1.get_node c).mv = some mc ∧ mc ∈ g.get_moves (m1.get_node i).state) ∧
    ((∀ i < m.tree.length, ∀ c ∈ (m.get_node i).child_nodes, 1 ≤ (m.get_node c).visits) →
      ∀ i < m1.tree.length, ∀ c ∈ (m1.get_node i).child_nodes,
        1 ≤ (m1.get_node c).visits ∨ c = cid) ∧
    (nid = 0 → (m1.get_node 0).child_nodes = (m.get_node 0).child_nodes ++ [m.tree.length]) ∧
    (nid ≠ 0 → (m1.get_node 0).child_nodes = (m.get_node 0).child_nodes) ∧
    (∀ j < m.tree.length, (m1.get_node j).visits = (m.get_node j).visits) ∧
    (m1.get_node cid).visits = 0 ∧
    (m1.get_node 0).state = (m.get_node 0).state ∧
    (m1.get_node cid).child_nodes = [] := by
  obtain ⟨st, hfm, hcid, hcur, htp, hlen, hother, hunt, hch, hmv1, hpar1, hw1, hv1, hst1, hnew⟩ :=
    make_move_some_spec g m nid mv m1 cid hn h
  have hlen0 : 0 < m.tree.length := by omega
  have hchv : ∀ i < m.tree.length, i ≠ nid →
      (m1.get_node i).child_nodes = (m.get_node i).child_nodes := by
    intro i hi hine
    rw [hother i hi hine]
  have hparv : ∀ j < m.tree.length, (m1.get_node j).parent_node = (m.get_node j).parent_node := by
    intro j hj
    by_cases hje : j = nid
    · subst hje
      exact hpar1
    · rw [hother j hj hje]
  have hvisv : ∀ j < m.tree.length, (m1.get_node j).visits = (m.get_node j).visits := by
    intro j hj
    by_cases hje : j = nid
    · subst hje
      exact hv1
    · rw [hother j hj hje]
  have hwinv : ∀ j < m.tree.length, (m1.get_node j).wins = (m.get_node j).wins := by
    intro j hj
    by_cases hje : j = nid
    · subst hje
      exact hw1
    · rw [hother j hj hje]
  have hstav : ∀ j < m.tree.length, (m1.get_node j).state = (m.get_node j).state := by
    intro j hj
    by_cases hje : j = nid
    · subst hje
      exact hst1
    · rw [hother j hj hje]
  have hmvv : ∀ j < m.tree.length, (m1.get_node j).mv = (m.get_node j).mv := by
    intro j hj
    by_cases hje : j = nid
    · subst hje
      exact hmv1
    · rw [hother j hj hje]
  have hLch : (m1.get_node m.tree.length).child_nodes = [] := by
    rw [hnew]
    rfl
  have hLpar : (m1.get_node m.tree.length).parent_node = some nid := by
    rw [hnew]
    rfl
  have hLmv : (m1.get_node m.tree.length).mv = some mv := by
    rw [hnew]
    rfl
  have hLw : (m1.get_node m.tree.length).wins = 0 := by
    rw [hnew]
    rfl
  have hLv : (m1.get_node m.tree.length).visits = 0 := by
    rw [hnew]
    rfl
  have hLst : (m1.get_node m.tree.length).state = st := by
    rw [hnew]
    rfl
  have hLut : (m1.get_node m.tree.length).untried_mvs = g.get_moves st := by
    rw [hnew]
    rfl
  have hchild1 : ∀ i < m1.tree.length, ∀ j ∈ (m1.get_node i).child_nodes,
      (i = m.tree.length → False) ∧
      (i ≠ m.tree.length → i = nid →
        j ∈ (m.get_node nid).child_nodes ∨ j = m.tree.length) ∧
      (i ≠ m.tree.length → i ≠ nid → j ∈ (m.get_node i).child_nodes ∧ i < m.tree.length) := by
    intro i hi j hj
    refine ⟨?_, ?_, ?_⟩
    · intro hiL
      rw [hiL, hLch] at hj
      exact absurd hj (List.not_mem_nil j)
    · intro hiL hin
      rw [hin, hch] at hj
      rcases List.mem_append.mp hj with hj1 | hj2
      · exact Or.inl hj1
      · exact Or.inr (by simpa using hj2)
    · intro hiL hin
      have hilt : i < m.tree.length := by
        rw [hlen] at hi
        omega
      rw [hchv i hilt hin] at hj
      exact ⟨hj, hilt⟩
  subst hcid
  refine ⟨hlen, rfl, hcur, ?_, ?_, ?_, ?_, ?_, ?_, ?_, ?_, ?_, ?_, ?_, ?_, ?_, hvisv, hLv, ?_, hLch⟩
  · -- child_gt
    intro i hi j hj
    obtain ⟨hA, hB, hC⟩ := hchild1 i hi j hj
    by_cases hiL : i = m.tree.length
    · exact absurd hiL (fun h => hA h)
    · by_cases hin : i = nid
      · rcases hB hiL hin with hj1 | hj2
        · rw [hin]
          exact hcg nid hn j hj1
        · rw [hin, hj2]
          exact hn
      · exact hcg i (hC hiL hin).2 j (hC hiL hin).1
  · -- child_lt
    intro i hi j hj
    obtain ⟨hA, hB, hC⟩ := hchild1 i hi j hj
    rw [hlen]
    by_cases hiL : i = m.tree.length
    · exact absurd hiL (fun h => hA h)
    · by_cases hin : i = nid
      · rcases hB hiL hin with hj1 | hj2
        · have := hcl nid hn j hj1
          omega
        · omega
      · have := hcl i (hC hiL hin).2 j (hC hiL hin).1
        omega
  · -- child_parent
    intro i hi j hj
    obtain ⟨hA, hB, hC⟩ := hchild1 i hi j hj
    by_cases hiL : i = m.tree.length
    · exact absurd hiL (fun h => hA h)
    · by_cases hin : i = nid
      · rcases hB hiL hin with hj1 | hj2
        · have hjlt := hcl nid hn j hj1
          rw [hparv j hjlt, hin]
          exact hcp nid hn j hj1
        · rw [hj2, hLpar, hin]
      · have hjlt := hcl i (hC hiL hin).2 j (hC hiL hin).1
        rw [hparv j hjlt]
        exact hcp i (hC hiL hin).2 j (hC hiL hin).1
  · -- child_nodup
    intro i hi
    by_cases hiL : i = m.tree.length
    · rw [hiL, hLch]
      exact List.nodup_nil
    · by_cases hin : i = nid
      · rw [hin, hch]
        refine List.Nodup.append (hnd nid hn) (List.nodup_singleton _) ?_
        intro a ha hmem
        have := hcl nid hn a ha
        have haL : a = m.tree.length := by simpa using hmem
        omega
      · have hilt : i < m.tree.length := by
          rw [hlen] at hi
          omega
        rw [hchv i hilt hin]
        exact hnd i hilt
  · -- parent_mem
    intro i hi p hp
    by_cases hiL : i = m.tree.length
    · rw [hiL, hLpar] at hp
      have hpn : p = nid := (Option.some.inj hp).symm
      subst hpn
      refine ⟨by omega, ?_⟩
      rw [hiL]
      by_cases hn0 : p = m.tree.length
      · omega
      · rw [show (m1.get_node p).child_nodes = (m.get_node p).child_nodes ++ [m.tree.length]
            from by rw [← hch]]
        simp
    · have hilt : i < m.tree.length := by
        rw [hlen] at hi
        omega
      rw [hparv i hilt] at hp
      have hr := hpm i hilt p hp
      refine ⟨hr.1, ?_⟩
      by_cases hpn : p = nid
      · rw [hpn, hch]
        rw [hpn] at hr
        exact List.mem_append.mpr (Or.inl hr.2)
      · have hplt : p < m.tree.length := by omega
        rw [hchv p hplt hpn]
        exact hr.2
  · -- wins_le
    intro i hi
    by_cases hiL : i = m.tree.length
    · rw [hiL, hLw, hLv]
    · have hilt : i < m.tree.length := by
        rw [hlen] at hi
        omega
      rw [hwinv i hilt, hvisv i hilt]
      exact hws i hilt
  · -- untried_sub
    intro i hi x hx
    by_cases hiL : i = m.tree.length
    · rw [hiL, hLut] at hx
      rw [hiL, hLst]
      exact hx
    · have hilt : i < m.tree.length := by
        rw [hlen] at hi
        omega
      rw [hstav i hilt]
      by_cases hin : i = nid
      · rw [hin, hunt] at hx
        rw [hin]
        exact hus nid hn x (List.mem_filter.mp hx).1
      · rw [hother i hilt hin] at hx
        exact hus i hilt x hx
  · -- parent_some (conditional)
    intro H i hi hne
    by_cases hiL : i = m.tree.length
    · rw [hiL, hLpar]
      exact Option.noConfusion
    · have hilt : i < m.tree.length := by
        rw [hlen] at hi
        omega
      rw [hparv i hilt]
      exact H i hilt hne
  · -- root_parent (conditional)
    intro H
    rw [hparv 0 hlen0]
    exact H
  · -- all_mv (conditional)
    intro Hmv Hmoves i hi c hc
    obtain ⟨hA, hB, hC⟩ := hchild1 i hi c hc
    by_cases hiL : i = m.tree.length
    · exact absurd hiL (fun h => hA h)
    · by_cases hin : i = nid
      · rw [hin, hstav nid hn]
        rcases hB hiL hin with hc1 | hc2
        · have hclt := hcl nid hn c hc1
          rw [hmvv c hclt]
          exact Hmv nid hn c hc1
        · rw [hc2, hLmv]
          exact ⟨mv, rfl, Hmoves⟩
      · have hilt := (hC hiL hin).2
        have hclt := hcl i hilt c (hC hiL hin).1
        rw [hstav i hilt, hmvv c hclt]
        exact Hmv i hilt c (hC hiL hin).1
  · -- visits weak (conditional)
    intro Hv i hi c hc
    obtain ⟨hA, hB, hC⟩ := hchild1 i hi c hc
    by_cases hiL : i = m.tree.length
    · exact absurd hiL (fun h => hA h)
    · by_cases hin : i = nid
      · rcases hB hiL hin with hc1 | hc2
        · have hclt := hcl nid hn c hc1
          rw [hvisv c hclt]
          exact Or.inl (Hv nid hn c hc1)
        · exact Or.inr hc2
      · have hilt := (hC hiL hin).2
        have hclt := hcl i hilt c (hC hiL hin).1
        rw [hvisv c hclt]
        exact Or.inl (Hv i hilt c (hC hiL hin).1)
  · -- children of root when expanding the root
    intro h0
    rw [← h0, hch]
  · -- children of root otherwise
    intro h0
    exact hchv 0 hlen0 (fun h => h0 h.symm)
  · -- root state
    by_cases hn0 : nid = 0
    · rw [← hn0, hst1]
    · rw [hother 0 hlen0 (fun h => hn0 h.symm)]

/-- Backpropagation starting inside a burst-invariant arena yields a
burst-invariant arena; the root keeps its payload links and the visit
total of its children grows by one unless the walk starts at the root. -/
theorem backprop_BInv (g : GameState P M ME S) (m : Mcts P M S) (nid : Nat) (winner : Option P)
    (hcg : ∀ i < m.tree.length, ∀ j ∈ (m.get_node i).child_nodes, i < j)
    (hcl : ∀ i < m.tree.length, ∀ j ∈ (m.get_node i).child_nodes, j < m.tree.length)
    (hcp : ∀ i < m.tree.length, ∀ j ∈ (m.get_node i).child_nodes,
      (m.get_node j).parent_node = some i)
    (hnd : ∀ i < m.tree.length, (m.get_node i).child_nodes.Nodup)
    (hpm : ∀ i < m.tree.length, ∀ p, (m.get_node i).parent_node = some p →
      p < i ∧ i ∈ (m.get_node p).child_nodes)
    (hws : ∀ i < m.tree.length, (m.get_node i).wins ≤ (m.get_node i).visits)
    (hus : ∀ i < m.tree.length, ∀ x ∈ (m.get_node i).untried_mvs,
      x ∈ g.get_moves (m.get_node i).state)
    (hce : m.cur_node_id = 0)
    (hrp : (m.get_node 0).parent_node = none)
    (hps : ∀ i < m.tree.length, i ≠ 0 → (m.get_node i).parent_node ≠ none)
    (hmv : ∀ i < m.tree.length, ∀ c ∈ (m.get_node i).child_nodes,
      ∃ mc, (m.get_node c).mv = some mc ∧ mc ∈ g.get_moves (m.get_node i).state)
    (hvs : ∀ i < m.tree.length, ∀ c ∈ (m.get_node i).child_nodes,
      1 ≤ (m.get_node c).visits ∨ c = nid)
    (hn : nid < m.tree.length) :
    BInv g (Mcts.phase_backprop g m.tree.length m nid winner) ∧
    (Mcts.phase_backprop g m.tree.length m nid winner).tree.length = m.tree.length ∧
    ((Mcts.phase_backprop g m.tree.length m nid winner).get_node 0).state
      = (m.get_node 0).state ∧
    ((Mcts.phase_backprop g m.tree.length m nid winner).get_node 0).child_nodes
      = (m.get_node 0).child_nodes ∧
    ((Mcts.phase_backprop g m.tree.length m nid winner).get_node 0).untried_mvs
      = (m.get_node 0).untried_mvs ∧
    ((((Mcts.phase_backprop g m.tree.length m nid winner).get_node 0).child_nodes.map
        (fun c => ((Mcts.phase_backprop g m.tree.length m nid winner).get_node c).visits)).sum
      = (((m.get_node 0).child_nodes.map (fun c => (m.get_node c).visits)).sum
          + (if nid = 0 then 0 else 1))) := by
  obtain ⟨eA, eB, eC, eD, eE, eF, eG⟩ :=
    phase_backprop_effect g m.tree.length m nid winner hpm hcp hps hrp
      (hnd 0 (by omega)) hn (by omega)
  refine ⟨?_, eA, (eC 0).2.2.2.2, (eC 0).2.2.1, (eC 0).2.2.2.1, eG⟩
  refine mk_BInv g _ ?_ ?_ ?_ ?_ ?_ ?_ ?_ ?_ ?_ ?_ ?_ ?_ ?_
  · rw [eB, eA, hce]
    omega
  · intro i hi j hj
    rw [eA] at hi
    rw [(eC i).2.2.1] at hj
    exact hcg i hi j hj
  · intro i hi j hj
    rw [eA] at hi
    rw [(eC i).2.2.1] at hj
    rw [eA]
    exact hcl i hi j hj
  · intro i hi j hj
    rw [eA] at hi
    rw [(eC i).2.2.1] at hj
    rw [(eC j).2.1]
    exact hcp i hi j hj
  · intro i hi
    rw [eA] at hi
    rw [(eC i).2.2.1]
    exact hnd i hi
  · intro i hi p hp
    rw [eA] at hi
    rw [(eC i).2.1] at hp
    have hr := hpm i hi p hp
    refine ⟨hr.1, ?_⟩
    rw [(eC p).2.2.1]
    exact hr.2
  · intro i hi
    rw [eA] at hi
    rcases eD i with ⟨d1, d2⟩ | ⟨d1, d2, d3⟩
    · rw [d1, d2]
      exact hws i hi
    · have := hws i hi
      omega
  · intro i hi x hx
    rw [eA] at hi
    rw [(eC i).2.2.2.1] at hx
    rw [(eC i).2.2.2.2]
    exact hus i hi x hx
  · rw [eB]
    exact hce
  · rw [(eC 0).2.1]
    exact hrp
  · intro i hi hne
    rw [eA] at hi
    rw [(eC i).2.1]
    exact hps i hi hne
  · intro i hi c hc
    rw [eA] at hi
    rw [(eC i).2.2.1] at hc
    obtain ⟨mc, h1, h2⟩ := hmv i hi c hc
    refine ⟨mc, ?_, ?_⟩
    · rw [(eC c).1]
      exact h1
    · rw [(eC i).2.2.2.2]
      exact h2
  · intro i hi c hc
    rw [eA] at hi
    rw [(eC i).2.2.1] at hc
    rcases hvs i hi c hc with h1 | h2
    · rcases eD c with ⟨d1, -⟩ | ⟨d1, -, -⟩
      · rw [d1]
        exact h1
      · rw [d1]
        omega
    · rw [h2, eF]
      omega

/-- One search iteration from a burst-invariant state keeps the
invariant, never shrinks the arena, never touches the root state; a
terminal root stays terminal, and from a non-terminal root the root
gains or keeps children while their visit total grows by exactly one. -/
theorem search_round_preserves (g : GameState P M ME S) (ps : StepParams P) (m m1 : Mcts P M S)
    (hB : BInv g m) (hs : m.search_round g ps = some m1) :
    BInv g m1 ∧
    m.tree.length ≤ m1.tree.length ∧
    (m1.get_node 0).state = (m.get_node 0).state ∧
    ((m.get_node 0).child_nodes = [] ∧ (m.get_node 0).untried_mvs = [] →
      (m1.get_node 0).child_nodes = [] ∧ (m1.get_node 0).untried_mvs = []) ∧
    (¬((m.get_node 0).child_nodes = [] ∧ (m.get_node 0).untried_mvs = []) →
      (m1.get_node 0).child_nodes ≠ [] ∧
      ((m1.get_node 0).child_nodes.map (fun c => (m1.get_node c).visits)).sum
        = ((m.get_node 0).child_nodes.map (fun c => (m.get_node c).visits)).sum + 1) := by
  have hce := hB.cur_eq
  have hlen0 : 0 < m.tree.length := by
    have := hB.cur_lt
    omega
  have hwf : ∀ i < m.tree.length, ∀ j ∈ (m.get_node i).child_nodes,
      i < j ∧ j < m.tree.length :=
    fun i hi j hj => ⟨hB.child_gt i hi j hj, hB.child_lt i hi j hj⟩
  have hself := phase_selection_facts m ps.oracle hwf m.tree.length m.cur_node_id hB.cur_lt
  rw [search_round_eq] at hs
  set sel := m.phase_selection ps.oracle m.tree.length m.cur_node_id with hseldef
  obtain ⟨hsle, hslt⟩ := hself
  have hterm_sel0 : (m.get_node 0).child_nodes = [] → sel = 0 := by
    intro h1
    have hg : ((m.get_node 0).is_fully_expanded && (m.get_node 0).has_children) = false := by
      simp [Node.has_children, h1]
    rw [hseldef, hce]
    exact phase_selection_stop m ps.oracle m.tree.length 0 hg
  cases hu : (m.get_node sel).untried_mvs with
  | nil =>
    rw [phase_expansion_nil g m sel ps.choice hu] at hs
    have hs2 : some (m.phase_backprop g m.tree.length sel ps.winner) = some m1 := hs
    have hm1 : m1 = m.phase_backprop g m.tree.length sel ps.winner := (Option.some.inj hs2).symm
    subst hm1
    have hbb := backprop_BInv g m sel ps.winner hB.child_gt hB.child_lt hB.child_parent
      hB.child_nodup hB.parent_mem hB.wins_le hB.untried_sub hce hB.root_parent hB.parent_some
      hB.all_mv (fun i hi c hc => Or.inl (hB.all_visits i hi c hc)) hslt
    obtain ⟨hBInv1, hlen1, hst0, hch0, hut0, hsum⟩ := hbb
    refine ⟨hBInv1, by omega, hst0, ?_, ?_⟩
    · intro h
      rw [hch0, hut0]
      exact h
    · intro hnt
      have hsne : sel ≠ 0 := by
        intro h0
        by_cases hch : (m.get_node 0).child_nodes = []
        · rw [h0] at hu
          exact hnt ⟨hch, hu⟩
        · rw [h0] at hu
          have hg : ((m.get_node 0).is_fully_expanded && (m.get_node 0).has_children) = true := by
            simp only [Node.is_fully_expanded, Node.has_children, hu, Bool.and_eq_true,
              decide_eq_true_eq]
            refine ⟨rfl, ?_⟩
            simpa [List.length_eq_zero] using hch
          have hgt1 := phase_selection_gt m ps.oracle hwf (m.tree.length - 1) 0 hlen0 hg
          rw [show m.tree.length - 1 + 1 = m.tree.length from by omega] at hgt1
          rw [hseldef, hce] at h0
          omega
      refine ⟨?_, ?_⟩
      · rw [hch0]
        exact fun hcc => hsne (hterm_sel0 hcc)
      · rw [hsum, if_neg hsne]
  | cons x xs =>
    rw [phase_expansion_cons g m sel ps.choice x xs hu] at hs
    cases hmm : m.make_move g sel ((x :: xs).getD (ps.choice % (x :: xs).length) x) with
    | none =>
      rw [hmm] at hs
      exact Option.noConfusion hs
    | some pr =>
      obtain ⟨m2, cid⟩ := pr
      rw [hmm] at hs
      have hs2 : some (m2.phase_backprop g m2.tree.length cid ps.winner) = some m1 := hs
      have hm1 : m1 = m2.phase_backprop g m2.tree.length cid ps.winner := (Option.some.inj hs2).symm
      subst hm1
      have hmv0 : (x :: xs).getD (ps.choice % (x :: xs).length) x
          ∈ (m.get_node sel).untried_mvs := by
        rw [hu]
        exact getD_mem _ _ _ (Nat.mod_lt _ (by simp))
      have hmv0m := hB.untried_sub sel hslt _ hmv0
      obtain ⟨s1len, scid, scur, s4, s5, s6, s7, s8, s9, s10, s11, s12, s13, s14, s15, s16,
        s17, s18, s19, s20⟩ :=
        make_move_structure g m m2 sel _ cid hB.child_gt hB.child_lt hB.child_parent
          hB.child_nodup hB.parent_mem hB.wins_le hB.untried_sub hslt hmm
      have hce2 : m2.cur_node_id = 0 := by
        rw [scur, hce]
      have hps2 := s11 hB.parent_some
      have hrp2 := s12 hB.root_parent
      have hmv2 := s13 hB.all_mv hmv0m
      have hvs2 := s14 hB.all_visits
      have hcid_lt : cid < m2.tree.length := by
        rw [s1len, scid]
        omega
      have hbb := backprop_BInv g m2 cid ps.winner s4 s5 s6 s7 s8 s9 s10 hce2 hrp2 hps2
        hmv2 hvs2 hcid_lt
      obtain ⟨hBInv1, hlen1, hst0, hch0, hut0, hsum⟩ := hbb
      have hcne : cid ≠ 0 := by
        rw [scid]
        omega
      refine ⟨hBInv1, by omega, by rw [hst0, s19], ?_, ?_⟩
      · intro h
        have hs0 := hterm_sel0 h.1
        rw [hs0, h.2] at hu
        exact List.noConfusion hu
      · intro hnt
        refine ⟨?_, ?_⟩
        · rw [hch0]
          by_cases hs0 : sel = 0
          · rw [s15 hs0]
            simp
          · rw [s16 hs0]
            exact fun hcc => hs0 (hterm_sel0 hcc)
        · rw [hsum, if_neg hcne]
          have hm2sum : ((m2.get_node 0).child_nodes.map (fun c => (m2.get_node c).visits)).sum
              = ((m.get_node 0).child_nodes.map (fun c => (m.get_node c).visits)).sum := by
            by_cases hs0 : sel = 0
            · rw [s15 hs0]
              rw [List.map_append, List.sum_append]
              have hLv : (m2.get_node m.tree.length).visits = 0 := by
                rw [← scid]
                exact s18
              have heq := sum_map_eq_on (m.get_node 0).child_nodes
                (fun c => (m.get_node c).visits) (fun c => (m2.get_node c).visits)
                (fun c hc => s17 c (hB.child_lt 0 hlen0 c hc))
              rw [heq]
              simp [hLv]
            · rw [s16 hs0]
              exact sum_map_eq_on (m.get_node 0).child_nodes
                (fun c => (m.get_node c).visits) (fun c => (m2.get_node c).visits)
                (fun c hc => s17 c (hB.child_lt 0 hlen0 c hc))
          rw [hm2sum]

/-- The whole search loop from a burst-invariant state: the invariant
holds at every step, the root state never changes, a terminal root stays
terminal, and from a non-terminal root the visit total of the root
children grows by exactly the number of iterations. -/
theorem run_rounds_preserves (g : GameState P M ME S) :
    ∀ (rounds : List (StepParams P)) (m m1 : Mcts P M S), BInv g m →
      Mcts.run_rounds g rounds m = some m1 →
      BInv g m1 ∧ (m1.get_node 0).state = (m.get_node 0).state ∧
      ((m.get_node 0).child_nodes = [] ∧ (m.get_node 0).untried_mvs = [] →
        (m1.get_node 0).child_nodes = [] ∧ (m1.get_node 0).untried_mvs = []) ∧
      (¬((m.get_node 0).child_nodes = [] ∧ (m.get_node 0).untried_mvs = []) →
        ((m1.get_node 0).child_nodes.map (fun c => (m1.get_node c).visits)).sum
          = ((m.get_node 0).child_nodes.map (fun c => (m.get_node c).visits)).sum
            + rounds.length) := by
  intro rounds
  induction rounds with
  | nil =>
    intro m m1 hB hr
    have hr2 : some m = some m1 := hr
    have hm1 : m1 = m := (Option.some.inj hr2).symm
    subst hm1
    exact ⟨hB, rfl, fun h => h, fun _ => by simp⟩
  | cons ps rest ih =>
    intro m m1 hB hr
    have hred : Mcts.run_rounds g (ps :: rest) m
        = match m.search_round g ps with
          | none => none
          | some m2 => Mcts.run_rounds g rest m2 := rfl
    rw [hred] at hr
    cases hsr : m.search_round g ps with
    | none =>
      rw [hsr] at hr
      exact Option.noConfusion hr
    | some m2 =>
      rw [hsr] at hr
      have hr2 : Mcts.run_rounds g rest m2 = some m1 := hr
      obtain ⟨hB2, hlen2, hst2, hterm2, hnon2⟩ := search_round_preserves g ps m m2 hB hsr
      obtain ⟨hB1, hst1, hterm1, hsum1⟩ := ih m2 m1 hB2 hr2
      refine ⟨hB1, by rw [hst1, hst2], ?_, ?_⟩
      · intro h
        exact hterm1 (hterm2 h)
      · intro hnt
        have hn2 := hnon2 hnt
        have hnt2 : ¬((m2.get_node 0).child_nodes = [] ∧ (m2.get_node 0).untried_mvs = []) :=
          fun hcc => hn2.1 hcc.1
        rw [hsum1 hnt2, hn2.2]
        simp
        omega


end RoundPreservation

section ReachableInv

variable {P M ME S : Type} [DecidableEq P] [DecidableEq M] [Inhabited S]

/-- A childless node has no strict descendants. -/
theorem IsDesc_childless {M S : Type} [Inhabited S] (t : List (Node M S)) (a j : Nat)
    (h : (t.getD a default).child_nodes = []) (hd : IsDesc t a j) : j = a := by
  cases hd with
  | refl => rfl
  | step hb _ =>
    rw [h] at hb
    exact absurd hb (List.not_mem_nil _)

/-- The child scan of `update_move`, generalized over the accumulator:
a `some` result is either the accumulator or a scanned child carrying
the looked-up move. -/
theorem update_move_scan_mem (m : Mcts P M S) (mv : M) :
    ∀ (cs : List Nat) (acc : Option Nat) (c : Nat),
      cs.foldl (fun acc child_id =>
        match (m.get_node child_id).mv with
        | some mm => if mm = mv then some child_id else acc
        | none => acc) acc = some c →
      acc = some c ∨ (c ∈ cs ∧ (m.get_node c).mv = some mv) := by
  intro cs
  induction cs with
  | nil =>
    intro acc c h
    exact Or.inl h
  | cons a rest ih =>
    intro acc c h
    rw [List.foldl_cons] at h
    rcases ih _ c h with hacc | hmem
    · cases hmv : (m.get_node a).mv with
      | some mm =>
        simp only [hmv] at hacc
        by_cases hEq : mm = mv
        · rw [if_pos hEq] at hacc
          have hca : c = a := (Option.some.inj hacc).symm
          subst hca
          refine Or.inr ⟨List.mem_cons_self c rest, ?_⟩
          rw [hmv, hEq]
        · rw [if_neg hEq] at hacc
          exact Or.inl hacc
      | none =>
        simp only [hmv] at hacc
        exact Or.inl hacc
    · exact Or.inr ⟨List.mem_cons_of_mem _ hmem.1, hmem.2⟩

/-- The child scan starting from `none`: a hit is a scanned child
carrying the looked-up move. -/
theorem update_move_scan_some (m : Mcts P M S) (mv : M) (cs : List Nat) (c : Nat)
    (h : cs.foldl (fun acc child_id =>
        match (m.get_node child_id).mv with
        | some mm => if mm = mv then some child_id else acc
        | none => acc) none = some c) :
    c ∈ cs ∧ (m.get_node c).mv = some mv := by
  rcases update_move_scan_mem m mv cs none c h with h1 | h2
  · exact Option.noConfusion h1
  · exact h2

/-- Every reachable engine state satisfies the reachable-state
invariant. -/
theorem Reachable_RInv (g : GameState P M ME S) (m : Mcts P M S) (h : Reachable g m) :
    RInv g m := by
  induction h with
  | init target st =>
    have hlen : (Mcts.new g target st).tree.length = 1 := rfl
    have hch : ((Mcts.new g target st).get_node 0).child_nodes = [] := rfl
    have hpar : ((Mcts.new g target st).get_node 0).parent_node = none := rfl
    refine { cur_lt := ?_, child_gt := ?_, child_lt := ?_, child_parent := ?_,
             child_nodup := ?_, parent_mem := ?_, wins_le := ?_, untried_sub := ?_,
             desc_mv := ?_, desc_visits := ?_ }
    · have hcur : (Mcts.new g target st).cur_node_id = 0 := rfl
      rw [hcur, hlen]
      omega
    · intro i hi j hj
      rw [hlen] at hi
      have h0 : i = 0 := by omega
      rw [h0, hch] at hj
      exact absurd hj (List.not_mem_nil _)
    · intro i hi j hj
      rw [hlen] at hi
      have h0 : i = 0 := by omega
      rw [h0, hch] at hj
      exact absurd hj (List.not_mem_nil _)
    · intro i hi j hj
      rw [hlen] at hi
      have h0 : i = 0 := by omega
      rw [h0, hch] at hj
      exact absurd hj (List.not_mem_nil _)
    · intro i hi
      rw [hlen] at hi
      have h0 : i = 0 := by omega
      rw [h0, hch]
      exact List.nodup_nil
    · intro i hi p hp
      rw [hlen] at hi
      have h0 : i = 0 := by omega
      rw [h0, hpar] at hp
      exact Option.noConfusion hp
    · intro i hi
      rw [hlen] at hi
      have h0 : i = 0 := by omega
      rw [h0]
      exact Nat.le_refl _
    · intro i hi x hx
      rw [hlen] at hi
      have h0 : i = 0 := by omega
      rw [h0] at hx ⊢
      exact hx
    · intro j hd c hc
      have hj := IsDesc_childless _ _ _ hch hd
      rw [hj, hch] at hc
      exact absurd hc (List.not_mem_nil _)
    · intro j hd c hc
      have hj := IsDesc_childless _ _ _ hch hd
      rw [hj, hch] at hc
      exact absurd hc (List.not_mem_nil _)
  | update hre hup ih =>
    rename_i m0 m' mv b
    have hred : Mcts.update_move g m0 mv b
        = if b && !(decide (m0.target_player = g.get_current_player m0.get_cur_node.state))
          then none
          else if !b && decide (m0.target_player = g.get_current_player m0.get_cur_node.state)
          then none
          else
            match m0.get_cur_node.child_nodes.foldl
              (fun acc child_id =>
                match (m0.get_node child_id).mv with
                | some mm => if mm = mv then some child_id else acc
                | none => acc) none with
            | some child_id => some { m0 with cur_node_id := child_id }
            | none => (m0.make_move g m0.cur_node_id mv).map
                (fun pr => { pr.1 with cur_node_id := pr.2 }) := rfl
    rw [hred] at hup
    by_cases hg1 : (b && !(decide (m0.target_player
        = g.get_current_player m0.get_cur_node.state))) = true
    · rw [if_pos hg1] at hup
      exact Option.noConfusion hup
    · rw [if_neg hg1] at hup
      by_cases hg2 : (!b && decide (m0.target_player
          = g.get_current_player m0.get_cur_node.state)) = true
      · rw [if_pos hg2] at hup
        exact Option.noConfusion hup
      · rw [if_neg hg2] at hup
        cases hscan : m0.get_cur_node.child_nodes.foldl
            (fun acc child_id =>
              match (m0.get_node child_id).mv with
              | some mm => if mm = mv then some child_id else acc
              | none => acc) none with
        | some child_id =>
          rw [hscan] at hup
          have hup2 : some ({ m0 with cur_node_id := child_id } : Mcts P M S) = some m' := hup
          have hm' : m' = { m0 with cur_node_id := child_id } := (Option.some.inj hup2).symm
          subst hm'
          obtain ⟨hcm, -⟩ := update_move_scan_some m0 mv _ child_id hscan
          have hclt : child_id < m0.tree.length :=
            ih.child_lt m0.cur_node_id ih.cur_lt child_id hcm
          exact { cur_lt := hclt, child_gt := ih.child_gt, child_lt := ih.child_lt,
                  child_parent := ih.child_parent, child_nodup := ih.child_nodup,
                  parent_mem := ih.parent_mem, wins_le := ih.wins_le,
                  untried_sub := ih.untried_sub,
                  desc_mv := fun j hd c hc => ih.desc_mv j (IsDesc.step hcm hd) c hc,
                  desc_visits := fun j hd c hc => ih.desc_visits j (IsDesc.step hcm hd) c hc }
        | none =>
          rw [hscan] at hup
          cases hmm : m0.make_move g m0.cur_node_id mv with
          | none =>
            rw [hmm] at hup
            exact Option.noConfusion hup
          | some pr =>
            obtain ⟨m1, cid⟩ := pr
            rw [hmm] at hup
            have hup2 : some ({ m1 with cur_node_id := cid } : Mcts P M S) = some m' := hup
            have hm' : m' = { m1 with cur_node_id := cid } := (Option.some.inj hup2).symm
            subst hm'
            obtain ⟨s1len, scid, scur, s4, s5, s6, s7, s8, s9, s10, s11, s12, s13, s14, s15,
              s16, s17, s18, s19, s20⟩ :=
              make_move_structure g m0 m1 m0.cur_node_id mv cid ih.child_gt ih.child_lt
                ih.child_parent ih.child_nodup ih.parent_mem ih.wins_le ih.untried_sub
                ih.cur_lt hmm
            refine { cur_lt := ?_, child_gt := s4, child_lt := s5, child_parent := s6,
                     child_nodup := s7, parent_mem := s8, wins_le := s9, untried_sub := s10,
                     desc_mv := ?_, desc_visits := ?_ }
            · show cid < m1.tree.length
              rw [s1len, scid]
              omega
            · intro j hd c hc
              have hj := IsDesc_childless m1.tree cid j s20 hd
              rw [hj] at hc
              have hc2 : c ∈ (m1.get_node cid).child_nodes := hc
              rw [s20] at hc2
              exact absurd hc2 (List.not_mem_nil _)
            · intro j hd c hc
              have hj := IsDesc_childless m1.tree cid j s20 hd
              rw [hj] at hc
              have hc2 : c ∈ (m1.get_node cid).child_nodes := hc
              rw [s20] at hc2
              exact absurd hc2 (List.not_mem_nil _)
  | select hre hsel ih =>
    rename_i m0 m' rounds k n mv
    rw [select_next_move_eq] at hsel
    cases hrr : Mcts.run_rounds g rounds m0.prune_nodes with
    | none =>
      rw [hrr] at hsel
      exact Option.noConfusion hsel
    | some m1 =>
      rw [hrr] at hsel
      have hsel3 : (match m1.phase_action_select k with
          | none => none
          | some mvx => some (mvx, m1, rounds.length)) = some (mv, m', n) := hsel
      cases has : m1.phase_action_select k with
      | none =>
        rw [has] at hsel3
        exact Option.noConfusion hsel3
      | some mv0 =>
        rw [has] at hsel3
        have hsel2 : some ((mv0, m1, rounds.length) : M × Mcts P M S × Nat)
            = some (mv, m', n) := hsel3
        have hm1 : m1 = m' := congrArg (fun t => t.2.1) (Option.some.inj hsel2)
        have hBp := prune_BInv g m0 ih
        have hrun := run_rounds_preserves g rounds m0.prune_nodes m1 hBp hrr
        rw [← hm1]
        exact hrun.1.toRInv

end ReachableInv

section ClaimHelpers

variable {P M ME S : Type} [Inhabited S]

/-- A `some` result of action selection is the move of a root child. -/
theorem phase_action_select_some (m : Mcts P M S) (k : Nat) (mv : M)
    (h : m.phase_action_select k = some mv) :
    ∃ c ∈ (m.get_cur_node).child_nodes, (m.get_node c).mv = some mv := by
  unfold Mcts.phase_action_select at h
  cases hch : (m.get_cur_node).child_nodes with
  | nil =>
    rw [hch] at h
    exact Option.noConfusion h
  | cons c cs =>
    rw [hch] at h
    refine ⟨(c :: cs).getD (k % (c :: cs).length) c, ?_, h⟩
    exact getD_mem _ _ _ (Nat.mod_lt _ (by simp))

/-- Every handle scored by the UCB1 descent is a child of an in-arena
node, hence carries a positive visit count under the burst invariant. -/
theorem sel_scored_pos (m : Mcts P M S) (oracle : Nat → Nat)
    (hwf : ∀ i < m.tree.length, ∀ j ∈ (m.get_node i).child_nodes, i < j ∧ j < m.tree.length)
    (hvs : ∀ i < m.tree.length, ∀ c ∈ (m.get_node i).child_nodes, 1 ≤ (m.get_node c).visits) :
    ∀ (fuel nid : Nat), nid < m.tree.length →
      ∀ c ∈ m.sel_scored oracle fuel nid, 1 ≤ (m.get_node c).visits := by
  intro fuel
  induction fuel with
  | zero =>
    intro nid hn c hc
    exact absurd hc (List.not_mem_nil _)
  | succ fuel ih =>
    intro nid hn c hc
    have hred : m.sel_scored oracle (fuel + 1) nid
        = if (m.get_node nid).is_fully_expanded && (m.get_node nid).has_children then
            (m.get_node nid).child_nodes ++ m.sel_scored oracle fuel
              ((m.get_node nid).child_nodes.getD
                (oracle nid % (m.get_node nid).child_nodes.length) 0)
          else [] := rfl
    rw [hred] at hc
    by_cases hg : ((m.get_node nid).is_fully_expanded && (m.get_node nid).has_children) = true
    · rw [if_pos hg] at hc
      rcases List.mem_append.mp hc with hc1 | hc2
      · exact hvs nid hn c hc1
      · have hcne : (m.get_node nid).child_nodes.length ≠ 0 := by
          have := (Bool.and_eq_true _ _).mp hg
          simpa [Node.has_children] using this.2
        have hmem : (m.get_node nid).child_nodes.getD
            (oracle nid % (m.get_node nid).child_nodes.length) 0
              ∈ (m.get_node nid).child_nodes :=
          getD_mem _ _ _ (Nat.mod_lt _ (by omega))
        exact ih _ (hwf nid hn _ hmem).2 c hc2
    · rw [if_neg hg] at hc
      exact absurd hc (List.not_mem_nil _)

end ClaimHelpers

section ClaimC2

variable {P M ME S : Type} [Inhabited S]

/-- **C2.** Rerooting (`prune_nodes`) on a well-formed arena: the new
current root is handle 0; the rebuilt arena holds exactly one node for
the old root plus one for each of its strict descendants (in `desc_order`
traversal order); every copied node keeps its move, wins, visits,
untried moves and state (`payload`) bit-identically; and the copied
handles are exactly the old root and its descendants. -/
theorem prune_nodes_spec (m : Mcts P M S)
    (hwf : ∀ i < m.tree.length, ∀ j ∈ (m.get_node i).child_nodes, i < j ∧ j < m.tree.length)
    (hcur : m.cur_node_id < m.tree.length) :
    (m.prune_nodes).cur_node_id = 0 ∧
    (m.prune_nodes).tree.length
      = 1 + (desc_order m.tree m.tree.length m.cur_node_id).length ∧
    ((m.prune_nodes).get_node 0).payload = (m.get_cur_node).payload ∧
    (∀ k < (desc_order m.tree m.tree.length m.cur_node_id).length,
      ((m.prune_nodes).get_node (1 + k)).payload
        = (m.get_node ((desc_order m.tree m.tree.length m.cur_node_id).getD k 0)).payload) ∧
    (∀ j, (j = m.cur_node_id ∨ j ∈ desc_order m.tree m.tree.length m.cur_node_id)
      ↔ IsDesc m.tree m.cur_node_id j) := by
  have hmain := block_for_main m.tree (by simpa [Mcts.get_node] using hwf) m.tree.length
    m.cur_node_id 0 1 hcur (by omega) (by omega)
  have hT := prune_eq m hwf hcur
  refine ⟨?_, ?_, ?_, ?_, ?_⟩
  · rw [hT]
  · rw [hT]
    show (_ :: _).length = _
    rw [List.length_cons, block_for_length]
    omega
  · rw [hT]
    rfl
  · intro k hk
    rw [hT]
    have hacc : (({ m with
        tree := ({ m.get_cur_node with
                   parent_node := none
                   child_nodes := List.range' 1 (m.get_cur_node).child_nodes.length })
          :: block_for m.tree m.tree.length m.cur_node_id 0 1,
        cur_node_id := 0 } : Mcts P M S).get_node (1 + k))
        = (block_for m.tree m.tree.length m.cur_node_id 0 1).getD k default := by
      simp [Mcts.get_node, Nat.add_comm 1 k]
    rw [hacc]
    exact (hmain k hk).2.1
  · intro j
    constructor
    · intro hj
      rcases hj with hj1 | hj2
      · rw [hj1]
        exact IsDesc.refl _
      · exact desc_order_sound m.tree m.tree.length m.cur_node_id j hj2
    · intro hd
      rcases desc_order_complete m.tree (by simpa [Mcts.get_node] using hwf) m.tree.length
          m.cur_node_id j hcur (by omega) hd with h1 | h2
      · exact Or.inl h1
      · exact Or.inr h2

/-- Witness for C2 on the fresh engine. -/
theorem prune_nodes_spec_witness :
    (0 : Nat) < exM0.tree.length ∧ (exM0.prune_nodes).cur_node_id = 0 ∧
    (exM0.prune_nodes).tree.length
      = 1 + (desc_order exM0.tree exM0.tree.length exM0.cur_node_id).length := by
  have hth := prune_nodes_spec exM0 (by decide) (by decide)
  exact ⟨by decide, hth.1, hth.2.1⟩

end ClaimC2

section ClaimC3

variable {P M ME S : Type} [DecidableEq P] [DecidableEq M] [Inhabited S]

/-- **C3.** In any state reached by rerooting a reachable engine state
and running any prefix of the search loop, every node the UCB1 selector
scores during the descent from the current root (all children of every
fully-expanded node with children on the descent path) has at least one
visit, so the `wins/visits` division never divides by zero. -/
theorem sel_scored_visits_pos (g : GameState P M ME S) (m : Mcts P M S)
    (hre : Reachable g m) (rounds : List (StepParams P)) (mi : Mcts P M S)
    (hrr : Mcts.run_rounds g rounds m.prune_nodes = some mi) :
    ∀ (oracle : Nat → Nat) (fuel : Nat),
      ∀ c ∈ mi.sel_scored oracle fuel mi.cur_node_id, 1 ≤ (mi.get_node c).visits := by
  have hR := Reachable_RInv g m hre
  have hBp := prune_BInv g m hR
  have hBi := (run_rounds_preserves g rounds m.prune_nodes mi hBp hrr).1
  intro oracle fuel c hc
  exact sel_scored_pos mi oracle
    (fun i hi j hj => ⟨hBi.child_gt i hi j hj, hBi.child_lt i hi j hj⟩)
    hBi.all_visits fuel mi.cur_node_id hBi.cur_lt c hc

/-- Witness for C3: the zero-round prefix on the fresh engine. -/
theorem sel_scored_visits_pos_witness :
    Mcts.run_rounds connect4Game ([] : List (StepParams Connect4.Player))
        exM0.prune_nodes = some exM0.prune_nodes ∧
    (∀ (oracle : Nat → Nat) (fuel : Nat),
      ∀ c ∈ (exM0.prune_nodes).sel_scored oracle fuel (exM0.prune_nodes).cur_node_id,
        1 ≤ ((exM0.prune_nodes).get_node c).visits) :=
  ⟨rfl, sel_scored_visits_pos connect4Game exM0 (Reachable.init _ _) [] exM0.prune_nodes rfl⟩

end ClaimC3

section ClaimC6

variable {P M ME S : Type} [DecidableEq P] [DecidableEq M] [Inhabited S]

/-- **C6.** Whenever `select_next_move` on a reachable engine state
returns a move, that move is legal (`get_moves`) in the game state
stored at the current root at the time of the call. -/
theorem select_next_move_legal (g : GameState P M ME S) (m : Mcts P M S)
    (rounds : List (StepParams P)) (k : Nat) (mv : M) (m1 : Mcts P M S) (n : Nat)
    (hre : Reachable g m)
    (hsel : Mcts.select_next_move g m rounds k = some (mv, m1, n)) :
    mv ∈ g.get_moves (m.get_cur_node).state := by
  have hR := Reachable_RInv g m hre
  have hwf : ∀ i < m.tree.length, ∀ j ∈ (m.get_node i).child_nodes,
      i < j ∧ j < m.tree.length :=
    fun i hi j hj => ⟨hR.child_gt i hi j hj, hR.child_lt i hi j hj⟩
  have hBp := prune_BInv g m hR
  rw [select_next_move_eq] at hsel
  cases hrr : Mcts.run_rounds g rounds m.prune_nodes with
  | none =>
    rw [hrr] at hsel
    exact Option.noConfusion hsel
  | some mf =>
    rw [hrr] at hsel
    have hsel3 : (match mf.phase_action_select k with
        | none => none
        | some mvx => some (mvx, mf, rounds.length)) = some (mv, m1, n) := hsel
    cases has : mf.phase_action_select k with
    | none =>
      rw [has] at hsel3
      exact Option.noConfusion hsel3
    | some mv0 =>
      rw [has] at hsel3
      have hsel2 : some ((mv0, mf, rounds.length) : M × Mcts P M S × Nat)
          = some (mv, m1, n) := hsel3
      have hmv0 : mv0 = mv := congrArg (fun t => t.1) (Option.some.inj hsel2)
      subst hmv0
      obtain ⟨hrB, hrst, -, -⟩ := run_rounds_preserves g rounds m.prune_nodes mf hBp hrr
      obtain ⟨c, hcm, hcmv⟩ := phase_action_select_some mf k mv0 has
      have hcm0 : c ∈ (mf.get_node 0).child_nodes := by
        rw [Mcts.get_cur_node, hrB.cur_eq] at hcm
        exact hcm
      have hlen0 : 0 < mf.tree.length := by
        have := hrB.cur_lt
        rw [hrB.cur_eq] at this
        exact this
      obtain ⟨mc, hmc1, hmc2⟩ := hrB.all_mv 0 hlen0 c hcm0
      have hmveq : mv0 = mc := by
        rw [hcmv] at hmc1
        exact Option.some.inj hmc1
      subst hmveq
      have hstp : ((m.prune_nodes).get_node 0).state = (m.get_cur_node).state := by
        rw [prune_eq m hwf hR.cur_lt]
        rfl
      rw [← hstp, ← hrst]
      exact hmc2

/-- Witness for C6: a one-round burst on the fresh engine returns the
opening move in column 0, which is legal on the empty board. -/
theorem select_next_move_legal_witness :
    Reachable connect4Game exM0 ∧
    (0 : Connect4.Move) ∈ connect4Game.get_moves (exM0.get_cur_node).state := by
  refine ⟨Reachable.init _ _, ?_⟩
  obtain ⟨m1, n, hsel⟩ : ∃ m1 n,
      Mcts.select_next_move connect4Game exM0 [exP0] 0 = some (0, m1, n) := ⟨_, _, rfl⟩
  exact select_next_move_legal connect4Game exM0 [exP0] 0 0 m1 n (Reachable.init _ _) hsel

end ClaimC6

section ClaimC7

variable {P M ME S : Type} [DecidableEq P] [DecidableEq M] [Inhabited S]

/-- **C7.** In every engine state reachable from construction by any
sequence of `update_target_move`, `update_opponent_move` and
`select_next_move` calls, every node of the arena has `wins ≤ visits`. -/
theorem reachable_wins_le_visits (g : GameState P M ME S) (m : Mcts P M S)
    (hre : Reachable g m) :
    ∀ i < m.tree.length, (m.get_node i).wins ≤ (m.get_node i).visits :=
  (Reachable_RInv g m hre).wins_le

/-- Witness for C7 on the fresh engine. -/
theorem reachable_wins_le_visits_witness :
    Reachable connect4Game exM0 ∧
    (∀ i < exM0.tree.length, (exM0.get_node i).wins ≤ (exM0.get_node i).visits) :=
  ⟨Reachable.init _ _,
   reachable_wins_le_visits connect4Game exM0 (Reachable.init _ _)⟩

end ClaimC7

section ClaimC4Amended

variable {P M ME S : Type} [DecidableEq P] [DecidableEq M] [Inhabited S]

/-- **C4, amended.** When `select_next_move` on a reachable state
completes with `n` iterations, the visit total of the current root's
children in the returned state equals the total just after the reroot
plus `n` (each iteration adds exactly one); since the reroot retains the
visit statistics of surviving children, the total generally differs
from `n` itself (see the counterexample). -/
theorem select_next_move_visit_sum (g : GameState P M ME S) (m : Mcts P M S)
    (rounds : List (StepParams P)) (k : Nat) (mv : M) (m1 : Mcts P M S) (n : Nat)
    (hre : Reachable g m)
    (hsel : Mcts.select_next_move g m rounds k = some (mv, m1, n)) :
    n = rounds.length ∧
    m1.root_children_visit_sum
      = (m.prune_nodes).root_children_visit_sum + rounds.length := by
  have hR := Reachable_RInv g m hre
  have hBp := prune_BInv g m hR
  rw [select_next_move_eq] at hsel
  cases hrr : Mcts.run_rounds g rounds m.prune_nodes with
  | none =>
    rw [hrr] at hsel
    exact Option.noConfusion hsel
  | some mf =>
    rw [hrr] at hsel
    have hsel3 : (match mf.phase_action_select k with
        | none => none
        | some mvx => some (mvx, mf, rounds.length)) = some (mv, m1, n) := hsel
    cases has : mf.phase_action_select k with
    | none =>
      rw [has] at hsel3
      exact Option.noConfusion hsel3
    | some mv0 =>
      rw [has] at hsel3
      have hsel2 : some ((mv0, mf, rounds.length) : M × Mcts P M S × Nat)
          = some (mv, m1, n) := hsel3
      have hmf : mf = m1 := congrArg (fun t => t.2.1) (Option.some.inj hsel2)
      have hn : rounds.length = n := congrArg (fun t => t.2.2) (Option.some.inj hsel2)
      obtain ⟨hrB, -, hrterm, hrsum⟩ := run_rounds_preserves g rounds m.prune_nodes mf hBp hrr
      have hnt : ¬(((m.prune_nodes).get_node 0).child_nodes = []
          ∧ ((m.prune_nodes).get_node 0).untried_mvs = []) := by
        intro hterm
        have hterm2 := hrterm hterm
        have hnone : mf.phase_action_select k = none := by
          refine phase_action_select_none mf k ?_
          rw [Mcts.get_cur_node, hrB.cur_eq]
          exact hterm2.1
        rw [hnone] at has
        exact Option.noConfusion has
      have hsum := hrsum hnt
      refine ⟨hn.symm, ?_⟩
      have hcur1 : m1.cur_node_id = 0 := by
        rw [← hmf]
        exact hrB.cur_eq
      have hsum1 : m1.root_children_visit_sum
          = ((m1.get_node 0).child_nodes.map (fun c => (m1.get_node c).visits)).sum := by
        simp only [Mcts.root_children_visit_sum, Mcts.get_cur_node, hcur1]
      have hsum0 : (m.prune_nodes).root_children_visit_sum
          = (((m.prune_nodes).get_node 0).child_nodes.map
              (fun c => ((m.prune_nodes).get_node c).visits)).sum := by
        simp only [Mcts.root_children_visit_sum, Mcts.get_cur_node, hBp.cur_eq]
      rw [hsum1, hsum0, ← hmf]
      exact hsum

/-- Witness for the amended C4: a one-round burst on the fresh engine. -/
theorem select_next_move_visit_sum_witness :
    Reachable connect4Game exM0 ∧
    (Mcts.select_next_move connect4Game exM0 [exP0] 0).map
        (fun t => (t.2.1.root_children_visit_sum, t.2.2))
      = some ((exM0.prune_nodes).root_children_visit_sum + 1, 1) := by
  refine ⟨Reachable.init _ _, ?_⟩
  obtain ⟨m1, n, hsel⟩ : ∃ m1 n,
      Mcts.select_next_move connect4Game exM0 [exP0] 0 = some (0, m1, n) := ⟨_, _, rfl⟩
  have hth := select_next_move_visit_sum connect4Game exM0 [exP0] 0 0 m1 n
    (Reachable.init _ _) hsel
  rw [hsel]
  have h1 : n = 1 := by
    rw [hth.1]
    rfl
  show some (m1.root_children_visit_sum, n)
      = some ((exM0.prune_nodes).root_children_visit_sum + 1, 1)
  rw [h1, hth.2]
  rfl

end ClaimC4Amended
